import Mathlib

/-!
Verification of the codebase-search indexing pipeline (crate
`codex-rs/codebase-search`): a shallow embedding, in Lean, of the file-state
diff, the hierarchical chunker, the point-identifier generator, the
embedding-batch logic and the snapshot-file handling, together with proofs
and refutations of the specified properties.

Naming follows the Rust source: snake_case field and function names are
kept wherever Lean allows.
-/

namespace CodebaseSearch

/-! ### File state tracking (`file_state.rs`) -/

/-- `FileState` from `file_state.rs`: a per-file fingerprint consisting of the
md5 hex digest of the file content and the filesystem modification time. -/
structure FileState where
  content_md5 : String
  last_modified : Nat
deriving Repr, DecidableEq

/-- A `CodebaseState.file_states` mapping, embedded as an association list
from relative file path to `FileState` (the Rust `HashMap` iterated as a list
of entries; key uniqueness is an explicit hypothesis where it matters). -/
abbrev StateMap := List (String × FileState)

/-- `HashMap::get` on an association list: the value of the first entry whose
key equals `p`. -/
def lookupState (p : String) : StateMap → Option FileState
  | [] => none
  | (q, st) :: rest => if q = p then some st else lookupState p rest

/-- The three change sets computed by `restore_session` (`vector_db.rs`,
step 3 "Compare states and categorize files"). -/
structure ChangeSet where
  added : List String
  modified : List String
  deleted : List String
deriving Repr, DecidableEq

/-- The change classification of `restore_session` (`vector_db.rs` lines
324-352): a path present in both snapshots goes to `modified` when the two
`content_md5` values differ; a path only in the current snapshot goes to
`added`; a path only in the saved snapshot goes to `deleted`.  The Rust code
runs one loop over `current_file_states` pushing into `added`/`modified` and
one loop over `saved_state.file_states` keys testing a `HashSet` of current
keys; the filters below collect exactly the same elements. -/
def classifyChanges (saved current : StateMap) : ChangeSet where
  added := (current.filter (fun pc => (lookupState pc.1 saved).isNone)).map Prod.fst
  modified := (current.filter (fun pc =>
    match lookupState pc.1 saved with
    | some savedSt => decide (pc.2.content_md5 ≠ savedSt.content_md5)
    | none => false)).map Prod.fst
  deleted := (saved.map Prod.fst).filter (fun p => !(current.map Prod.fst).contains p)

/-- Replace every `last_modified` timestamp in a snapshot using an arbitrary
reassignment `f` of timestamps to paths, leaving the `content_md5` alone. -/
def retime (f : String → Nat) (m : StateMap) : StateMap :=
  m.map (fun pst => (pst.1, { pst.2 with last_modified := f pst.1 }))

theorem lookupState_retime (f : String → Nat) (m : StateMap) (p : String) :
    lookupState p (retime f m) =
      (lookupState p m).map (fun st => { st with last_modified := f p }) := by
  induction m with
  | nil => rfl
  | cons hd tl ih =>
    simp only [retime, List.map_cons, lookupState]
    by_cases h : hd.1 = p
    · subst h; simp
    · simpa [h, retime] using ih

theorem lookupState_isSome_iff (p : String) (m : StateMap) :
    (lookupState p m).isSome ↔ p ∈ m.map Prod.fst := by
  induction m with
  | nil => simp [lookupState]
  | cons hd tl ih =>
    simp only [lookupState, List.map_cons, List.mem_cons]
    by_cases h : hd.1 = p
    · simp [h]
    · simp only [if_neg h, ih]
      constructor
      · exact Or.inr
      · rintro (h' | h')
        · exact absurd h'.symm h
        · exact h'

theorem lookupState_eq_some_iff_mem (p : String) (st : FileState) (m : StateMap)
    (hnd : (m.map Prod.fst).Nodup) :
    lookupState p m = some st ↔ (p, st) ∈ m := by
  induction m with
  | nil => simp [lookupState]
  | cons hd tl ih =>
    simp only [List.map_cons, List.nodup_cons] at hnd
    simp only [lookupState, List.mem_cons]
    by_cases h : hd.1 = p
    · subst h
      rw [if_pos rfl]
      constructor
      · rintro h'
        left
        cases h'
        exact (Prod.mk.eta).symm
      · rintro (h' | h')
        · rw [← h']
        · exact absurd (List.mem_map_of_mem Prod.fst h') hnd.1
    · rw [if_neg h, ih hnd.2]
      constructor
      · exact Or.inr
      · rintro (h' | h')
        · exact absurd (congrArg Prod.fst h').symm h
        · exact h'

theorem lookupState_unique (p : String) (a b : FileState) (m : StateMap)
    (hnd : (m.map Prod.fst).Nodup) (ha : (p, a) ∈ m) (hb : (p, b) ∈ m) : a = b := by
  have h1 := (lookupState_eq_some_iff_mem p a m hnd).mpr ha
  have h2 := (lookupState_eq_some_iff_mem p b m hnd).mpr hb
  rw [h1] at h2
  exact Option.some.inj h2

theorem mem_classifyChanges_added (saved current : StateMap) (p : String) :
    p ∈ (classifyChanges saved current).added ↔
      p ∈ current.map Prod.fst ∧ p ∉ saved.map Prod.fst := by
  simp only [classifyChanges, List.mem_map, List.mem_filter]
  constructor
  · rintro ⟨pc, ⟨hmem, hpred⟩, hkey⟩
    subst hkey
    refine ⟨⟨pc, hmem, rfl⟩, ?_⟩
    rintro ⟨a, ha, hak⟩
    have hs : (lookupState pc.1 saved).isSome :=
      (lookupState_isSome_iff _ _).mpr (List.mem_map.mpr ⟨a, ha, hak⟩)
    simp only [Option.isNone_iff_eq_none] at hpred
    rw [hpred] at hs
    exact Bool.noConfusion hs
  · rintro ⟨⟨pc, hpc, hkey⟩, habs⟩
    refine ⟨pc, ⟨hpc, ?_⟩, hkey⟩
    cases h : lookupState pc.1 saved with
    | none => rfl
    | some st =>
      exfalso
      have hs : pc.1 ∈ saved.map Prod.fst :=
        (lookupState_isSome_iff pc.1 saved).mp (by rw [h]; rfl)
      rw [hkey] at hs
      obtain ⟨a, ha, hak⟩ := List.mem_map.mp hs
      exact habs ⟨a, ha, hak⟩

theorem mem_classifyChanges_modified (saved current : StateMap) (p : String)
    (h1 : (saved.map Prod.fst).Nodup) (h2 : (current.map Prod.fst).Nodup)
    (so sc : FileState) (hso : (p, so) ∈ saved) (hsc : (p, sc) ∈ current) :
    p ∈ (classifyChanges saved current).modified ↔ sc.content_md5 ≠ so.content_md5 := by
  have hl : lookupState p saved = some so := (lookupState_eq_some_iff_mem p so saved h1).mpr hso
  simp only [classifyChanges, List.mem_map, List.mem_filter]
  constructor
  · rintro ⟨pc, ⟨hmem, hpred⟩, hkey⟩
    subst hkey
    have : pc.2 = sc := lookupState_unique pc.1 pc.2 sc current h2 hmem hsc
    rw [hl, this] at hpred
    exact of_decide_eq_true hpred
  · intro hne
    refine ⟨(p, sc), ⟨hsc, ?_⟩, rfl⟩
    rw [hl]
    exact decide_eq_true hne

theorem mem_classifyChanges_deleted (saved current : StateMap) (p : String) :
    p ∈ (classifyChanges saved current).deleted ↔
      p ∈ saved.map Prod.fst ∧ p ∉ current.map Prod.fst := by
  simp [classifyChanges, List.mem_filter]

theorem lookupState_isNone_retime (f : String → Nat) (m : StateMap) (p : String) :
    (lookupState p (retime f m)).isNone = (lookupState p m).isNone := by
  rw [lookupState_retime]
  cases lookupState p m <;> rfl

theorem retime_map_fst (f : String → Nat) (m : StateMap) :
    (retime f m).map Prod.fst = m.map Prod.fst := by
  simp [retime]

theorem classifyChanges_retime (saved current : StateMap) (f g : String → Nat) :
    classifyChanges (retime f saved) (retime g current) = classifyChanges saved current := by
  have hfilter : ∀ (q : String × FileState → Bool) (l : StateMap) (h : String × FileState → String × FileState),
      ((l.map h).filter q).map Prod.fst = (l.filter (fun x => q (h x))).map (fun x => (h x).1) := by
    intro q l h
    rw [List.filter_map, List.map_map]
    rfl
  unfold classifyChanges
  congr 1
  · rw [show retime g current = current.map (fun pst => (pst.1, { pst.2 with last_modified := g pst.1 })) from rfl,
      hfilter]
    congr 1
    · apply List.filter_congr
      intro x _
      rw [show (x.1, { x.2 with last_modified := g x.1 }).1 = x.1 from rfl,
        lookupState_isNone_retime]
  · rw [show retime g current = current.map (fun pst => (pst.1, { pst.2 with last_modified := g pst.1 })) from rfl,
      hfilter]
    congr 1
    apply List.filter_congr
    intro x _
    rw [show (x.1, { x.2 with last_modified := g x.1 }).1 = x.1 from rfl]
    rw [lookupState_retime]
    cases lookupState x.1 saved <;> rfl
  · rw [retime_map_fst, retime_map_fst]

/-- C2.  For every saved snapshot and every current snapshot (association
lists with unique keys), the change classification of `restore_session` puts
a path present in both into `modified` iff the two `content_md5` values
differ, into `added` iff it is a current key that is not a saved key, and
into `deleted` iff it is a saved key that is not a current key; the
`last_modified` timestamps are never consulted: reassigning every timestamp
on both sides leaves the classification unchanged, so a touched-but-unchanged
file is classified unchanged. -/
theorem c2_diff_classification (saved current : StateMap)
    (h1 : (saved.map Prod.fst).Nodup) (h2 : (current.map Prod.fst).Nodup) :
    (∀ p so sc, (p, so) ∈ saved → (p, sc) ∈ current →
       (p ∈ (classifyChanges saved current).modified ↔ sc.content_md5 ≠ so.content_md5)) ∧
    (∀ p, p ∈ (classifyChanges saved current).added ↔
       p ∈ current.map Prod.fst ∧ p ∉ saved.map Prod.fst) ∧
    (∀ p, p ∈ (classifyChanges saved current).deleted ↔
       p ∈ saved.map Prod.fst ∧ p ∉ current.map Prod.fst) ∧
    (∀ f g, classifyChanges (retime f saved) (retime g current) =
       classifyChanges saved current) := by
  refine ⟨fun p so sc hso hsc => ?_, fun p => ?_, fun p => ?_, fun f g => ?_⟩
  · exact mem_classifyChanges_modified saved current p h1 h2 so sc hso hsc
  · exact mem_classifyChanges_added saved current p
  · exact mem_classifyChanges_deleted saved current p
  · exact classifyChanges_retime saved current f g

/-- Witness for C2 at a concrete pair of snapshots: `a.rs` is present in both
with equal hashes and differing timestamps, `c.rs` is new, `b.rs` is gone. -/
theorem c2_diff_classification_witness :
    ("a.rs" ∈ (classifyChanges
        [("a.rs", ⟨"h1", 10⟩), ("b.rs", ⟨"h2", 10⟩)]
        [("a.rs", ⟨"h1", 99⟩), ("c.rs", ⟨"h3", 5⟩)]).modified ↔ "h1" ≠ "h1") ∧
    ("c.rs" ∈ (classifyChanges
        [("a.rs", ⟨"h1", 10⟩), ("b.rs", ⟨"h2", 10⟩)]
        [("a.rs", ⟨"h1", 99⟩), ("c.rs", ⟨"h3", 5⟩)]).added ↔
      "c.rs" ∈ [("a.rs", (⟨"h1", 99⟩ : FileState)), ("c.rs", ⟨"h3", 5⟩)].map Prod.fst ∧
      "c.rs" ∉ [("a.rs", (⟨"h1", 10⟩ : FileState)), ("b.rs", ⟨"h2", 10⟩)].map Prod.fst) := by
  have h := c2_diff_classification
    [("a.rs", ⟨"h1", 10⟩), ("b.rs", ⟨"h2", 10⟩)]
    [("a.rs", ⟨"h1", 99⟩), ("c.rs", ⟨"h3", 5⟩)]
    (by decide) (by decide)
  exact ⟨h.1 "a.rs" ⟨"h1", 10⟩ ⟨"h1", 99⟩ (by decide) (by decide), h.2.1 "c.rs"⟩

/-! ### Symbols (`symbol.rs`) and chunks (`chunker.rs`) -/

/-- `SymbolKind` from `symbol.rs`. -/
inductive SymbolKind where
  | Function
  | Struct
  | Enum
  | Trait
  | Impl
  | Module
  | Constant
  | Variable
  | Class
  | Method
  | Interface
  | Type
deriving Repr, DecidableEq

/-- The serialized form of a kind produced by the Rust debug formatter,
used for `CodeChunk.symbol_kind`. -/
def SymbolKind.debugStr : SymbolKind → String
  | .Function => "Function"
  | .Struct => "Struct"
  | .Enum => "Enum"
  | .Trait => "Trait"
  | .Impl => "Impl"
  | .Module => "Module"
  | .Constant => "Constant"
  | .Variable => "Variable"
  | .Class => "Class"
  | .Method => "Method"
  | .Interface => "Interface"
  | .Type => "Type"

/-- `Symbol` from `symbol.rs`; `file_path` is embedded as a string. -/
structure Symbol where
  name : String
  kind : SymbolKind
  content : String
  file_path : String
  start_line : Nat
  end_line : Nat
  start_column : Nat
  end_column : Nat
  context : Option String
deriving Repr, DecidableEq

/-- `ChunkMetadata` from `chunker.rs`. -/
structure ChunkMetadata where
  is_split : Bool
  original_size_lines : Nat
  chunk_depth : Nat
  is_container : Bool
deriving Repr, DecidableEq

/-- `CodeChunk` from `chunker.rs`. -/
structure CodeChunk where
  content : String
  file_path : String
  start_line : Nat
  end_line : Nat
  symbol_name : String
  symbol_kind : String
  context : Option String
  chunk_metadata : ChunkMetadata
deriving Repr, DecidableEq

/-- `ChunkingOptions` from `chunker.rs`. -/
structure ChunkingOptions where
  max_lines_per_chunk : Nat
  min_lines_per_chunk : Nat
  include_metadata : Bool
  max_recursion_depth : Nat
deriving Repr, DecidableEq

/-- The `Default` impl for `ChunkingOptions`. -/
def ChunkingOptions.default : ChunkingOptions where
  max_lines_per_chunk := 200
  min_lines_per_chunk := 5
  include_metadata := true
  max_recursion_depth := 5

/-- The sub-symbol extraction step of `try_recursive_chunking`: extension
lookup, parser lookup, `parser.parse` and `extract_symbols` on the symbol's
own content.  The tree-sitter parsers are external to the crate, so this
step is abstracted as an oracle: `none` stands for any of the error returns
(unsupported extension, missing parser, parse failure, extraction failure)
and `some subs` for a successful extraction.  All chunker theorems below are
quantified over every oracle. -/
abbrev SubSymbolOracle := Symbol → Option (List Symbol)

/-- The lines of a string as produced by Rust `str::lines`: split on the
newline character, drop the trailing empty piece produced by a final
newline, and strip a trailing carriage return from each line. -/
def rustLines (s : String) : List String :=
  let parts := s.splitOn "\n"
  let parts := if parts.getLast? = some "" then parts.dropLast else parts
  parts.map (fun l => if l.endsWith "\r" then l.dropRight 1 else l)

/-- `extract_container_signature` from `chunker.rs`: the first at most ten
lines of the symbol's content, with a continuation marker if truncated. -/
def extractContainerSignature (symbol : Symbol) : String :=
  let lines := rustLines symbol.content
  let signature_lines := min 10 lines.length
  let signature := String.intercalate "\n" (lines.take signature_lines)
  if signature_lines < lines.length then
    signature ++ "\n\n// ... (content continues) ..."
  else
    signature

/-- `create_chunk_from_symbol` from `chunker.rs`. -/
def createChunkFromSymbol (opts : ChunkingOptions) (symbol : Symbol) (depth : Nat)
    (is_split : Bool) : CodeChunk where
  content :=
    if opts.include_metadata then
      "// File: " ++ symbol.file_path ++ ", Symbol: " ++ symbol.name ++ ", Kind: " ++
        symbol.kind.debugStr ++ "\n" ++
        (match symbol.context with
          | some ctx => "// Context: " ++ ctx
          | none => "") ++
        "\n, Content: " ++ symbol.content ++ "\n"
    else
      symbol.content
  file_path := symbol.file_path
  start_line := symbol.start_line
  end_line := symbol.end_line
  symbol_name := symbol.name
  symbol_kind := symbol.kind.debugStr
  context := symbol.context
  chunk_metadata :=
    { is_split := is_split
      original_size_lines := symbol.end_line - symbol.start_line + 1
      chunk_depth := depth
      is_container := false }

/-- The kind test of `should_create_container_chunk`: the Rust
`matches!(symbol.kind, Impl | Module | Struct | Trait)`. -/
def isContainerKind : SymbolKind → Bool
  | .Impl | .Module | .Struct | .Trait => true
  | _ => false

/-- `should_create_container_chunk` from `chunker.rs`: the symbol kind is
Impl, Module, Struct or Trait, and the surviving sub-symbol list is nonempty
with more than one element. -/
def shouldCreateContainerChunk (symbol : Symbol) (sub_symbols : List Symbol) : Bool :=
  isContainerKind symbol.kind && !sub_symbols.isEmpty && decide (sub_symbols.length > 1)

/-- `create_container_chunk` from `chunker.rs`. -/
def createContainerChunk (opts : ChunkingOptions) (symbol : Symbol) (depth : Nat)
    (sub_symbols : List Symbol) : CodeChunk where
  content :=
    if opts.include_metadata then
      "// File: " ++ symbol.file_path ++ ", Container: " ++ symbol.name ++ ", Kind: " ++
        symbol.kind.debugStr ++ "\n// Contains " ++ toString sub_symbols.length ++
        " sub-symbols: " ++ String.intercalate ", " (sub_symbols.map (·.name)) ++
        "\n\n" ++ extractContainerSignature symbol
    else
      extractContainerSignature symbol
  file_path := symbol.file_path
  start_line := symbol.start_line
  end_line := symbol.end_line
  symbol_name := symbol.name
  symbol_kind := symbol.kind.debugStr
  context := symbol.context
  chunk_metadata :=
    { is_split := true
      original_size_lines := symbol.end_line - symbol.start_line + 1
      chunk_depth := depth
      is_container := true }

/-- The sub-symbol filter of `try_recursive_chunking` (`chunker.rs` lines
213-219): keep a candidate iff its line count is at least
`min_lines_per_chunk` and its name differs from the parent symbol's name. -/
def validSubSymbols (opts : ChunkingOptions) (symbol : Symbol)
    (sub_symbols : List Symbol) : List Symbol :=
  sub_symbols.filter (fun sub_sym =>
    decide (opts.min_lines_per_chunk ≤ sub_sym.end_line - sub_sym.start_line + 1) &&
    decide (sub_sym.name ≠ symbol.name))

mutual

/-- `chunk_symbol_recursive` from `chunker.rs`.  The inner `match` is the
body of `try_recursive_chunking` (`none` is its `Err` return, `some []` its
two `Ok(vec![])` returns); the outer `match` mirrors the `Ok`-nonempty /
`Ok`-empty / `Err` branches of `chunk_symbol_recursive` lines 144-167. -/
def chunkSymbolRecursive (opts : ChunkingOptions) (oracle : SubSymbolOracle)
    (symbol : Symbol) (depth : Nat) : List CodeChunk :=
  if _h : depth ≥ opts.max_recursion_depth then
    [createChunkFromSymbol opts symbol depth false]
  else
    let symbol_size := symbol.end_line - symbol.start_line + 1
    if symbol_size ≤ opts.max_lines_per_chunk then
      [createChunkFromSymbol opts symbol depth false]
    else
      match (match oracle symbol with
        | none => none
        | some sub_symbols =>
          if sub_symbols.isEmpty then
            some []
          else
            let valid_sub_symbols := validSubSymbols opts symbol sub_symbols
            if valid_sub_symbols.isEmpty then
              some []
            else
              let all_chunks := chunkSymbolList opts oracle valid_sub_symbols (depth + 1)
              some (if shouldCreateContainerChunk symbol valid_sub_symbols then
                createContainerChunk opts symbol depth valid_sub_symbols :: all_chunks
              else
                all_chunks) : Option (List CodeChunk)) with
      | none => [createChunkFromSymbol opts symbol depth true]
      | some sub_chunks =>
        if sub_chunks.isEmpty then
          [createChunkFromSymbol opts symbol depth true]
        else
          sub_chunks
termination_by ((opts.max_recursion_depth + 1) - depth, 0, 0)

/-- The loop of `try_recursive_chunking` over the surviving sub-symbols
(`chunker.rs` lines 226-230): recursively chunk each at `depth + 1` and
concatenate. -/
def chunkSymbolList (opts : ChunkingOptions) (oracle : SubSymbolOracle)
    (symbols : List Symbol) (depth : Nat) : List CodeChunk :=
  match symbols with
  | [] => []
  | s :: rest =>
    chunkSymbolRecursive opts oracle s depth ++ chunkSymbolList opts oracle rest depth
termination_by ((opts.max_recursion_depth + 1) - depth, 1, symbols.length)

end

/-- `try_recursive_chunking` from `chunker.rs`, as a function of its own:
`none` is the `Err` return, `some l` an `Ok(l)` return.  It is by
construction the inner `match` of `chunkSymbolRecursive`. -/
def tryRecursiveChunking (opts : ChunkingOptions) (oracle : SubSymbolOracle)
    (symbol : Symbol) (depth : Nat) : Option (List CodeChunk) :=
  match oracle symbol with
  | none => none
  | some sub_symbols =>
    if sub_symbols.isEmpty then
      some []
    else
      let valid_sub_symbols := validSubSymbols opts symbol sub_symbols
      if valid_sub_symbols.isEmpty then
        some []
      else
        let all_chunks := chunkSymbolList opts oracle valid_sub_symbols (depth + 1)
        some (if shouldCreateContainerChunk symbol valid_sub_symbols then
          createContainerChunk opts symbol depth valid_sub_symbols :: all_chunks
        else
          all_chunks)

/-- `chunk_symbols` from `chunker.rs`: run `chunk_symbol_recursive` at depth
0 on every input symbol and concatenate the results. -/
def chunkSymbols (opts : ChunkingOptions) (oracle : SubSymbolOracle)
    (symbols : List Symbol) : List CodeChunk :=
  symbols.flatMap (fun s => chunkSymbolRecursive opts oracle s 0)

@[simp]
theorem createChunkFromSymbol_metadata (opts : ChunkingOptions) (s : Symbol) (d : Nat) (b : Bool) :
    (createChunkFromSymbol opts s d b).chunk_metadata =
      ⟨b, s.end_line - s.start_line + 1, d, false⟩ := rfl

@[simp]
theorem createContainerChunk_metadata (opts : ChunkingOptions) (s : Symbol) (d : Nat)
    (subs : List Symbol) :
    (createContainerChunk opts s d subs).chunk_metadata =
      ⟨true, s.end_line - s.start_line + 1, d, true⟩ := rfl

/-- One unfolding of `chunkSymbolRecursive` with the inner `match` named as
`tryRecursiveChunking` — the shape of `chunk_symbol_recursive` lines 118-167. -/
theorem chunkSymbolRecursive_eq (opts : ChunkingOptions) (oracle : SubSymbolOracle)
    (symbol : Symbol) (depth : Nat) :
    chunkSymbolRecursive opts oracle symbol depth =
      if depth ≥ opts.max_recursion_depth then
        [createChunkFromSymbol opts symbol depth false]
      else if symbol.end_line - symbol.start_line + 1 ≤ opts.max_lines_per_chunk then
        [createChunkFromSymbol opts symbol depth false]
      else
        match tryRecursiveChunking opts oracle symbol depth with
        | none => [createChunkFromSymbol opts symbol depth true]
        | some sub_chunks =>
          if sub_chunks.isEmpty then
            [createChunkFromSymbol opts symbol depth true]
          else
            sub_chunks := by
  rw [chunkSymbolRecursive]
  rfl

theorem mem_chunkSymbolList (opts : ChunkingOptions) (oracle : SubSymbolOracle)
    (syms : List Symbol) (d : Nat) (c : CodeChunk) :
    c ∈ chunkSymbolList opts oracle syms d ↔
      ∃ s ∈ syms, c ∈ chunkSymbolRecursive opts oracle s d := by
  induction syms with
  | nil => simp [chunkSymbolList]
  | cons s rest ih => simp [chunkSymbolList, ih]

/-- Case analysis on a successful `try_recursive_chunking` run. -/
theorem tryRecursiveChunking_cases (opts : ChunkingOptions) (oracle : SubSymbolOracle)
    (symbol : Symbol) (d : Nat) (l : List CodeChunk)
    (h : tryRecursiveChunking opts oracle symbol d = some l) :
    l = [] ∨
      ∃ subs, oracle symbol = some subs ∧
        validSubSymbols opts symbol subs ≠ [] ∧
        ((shouldCreateContainerChunk symbol (validSubSymbols opts symbol subs) = true ∧
            l = createContainerChunk opts symbol d (validSubSymbols opts symbol subs) ::
              chunkSymbolList opts oracle (validSubSymbols opts symbol subs) (d + 1)) ∨
          (shouldCreateContainerChunk symbol (validSubSymbols opts symbol subs) = false ∧
            l = chunkSymbolList opts oracle (validSubSymbols opts symbol subs) (d + 1))) := by
  unfold tryRecursiveChunking at h
  split at h
  · exact absurd h (by simp)
  · rename_i subs horacle
    split at h
    · left
      exact (Option.some.inj h).symm
    · simp only [] at h
      split at h
      · left
        exact (Option.some.inj h).symm
      · rename_i hvalid
        right
        refine ⟨subs, horacle, by simpa [List.isEmpty_iff] using hvalid, ?_⟩
        split at h
        · rename_i hshould
          left
          exact ⟨hshould, (Option.some.inj h).symm⟩
        · rename_i hshould
          right
          exact ⟨by simpa using hshould, (Option.some.inj h).symm⟩

/-- C5.  `decompose(s, 0)` never returns an empty list: every branch of
`chunk_symbol_recursive` — depth ceiling, small-enough symbol, successful
recursive split, empty sub-symbol set, and decomposition error — produces at
least one chunk, for every chunking options value and every sub-symbol
extraction oracle. -/
theorem c5_decompose_never_empty (opts : ChunkingOptions) (oracle : SubSymbolOracle)
    (symbol : Symbol) :
    chunkSymbolRecursive opts oracle symbol 0 ≠ [] := by
  rw [chunkSymbolRecursive_eq]
  split
  · simp
  · split
    · simp
    · split
      · simp
      · rename_i sub_chunks _
        split
        · simp
        · rename_i hne
          cases sub_chunks with
          | nil => simp at hne
          | cons a t => simp

/-- Every chunk produced at call depth `d` records a depth of at least `d`
(sub-chunks record strictly deeper values, the chunk or container built for
the symbol itself records exactly `d`). -/
theorem le_chunk_depth_of_mem :
    ∀ (n : Nat) (opts : ChunkingOptions) (oracle : SubSymbolOracle) (d : Nat) (symbol : Symbol),
      opts.max_recursion_depth + 1 - d ≤ n →
      ∀ c ∈ chunkSymbolRecursive opts oracle symbol d, d ≤ c.chunk_metadata.chunk_depth := by
  intro n
  induction n with
  | zero =>
    intro opts oracle d symbol hle c hc
    rw [chunkSymbolRecursive_eq, if_pos (by omega : d ≥ opts.max_recursion_depth)] at hc
    simp only [List.mem_singleton] at hc
    subst hc
    simp
  | succ n ih =>
    intro opts oracle d symbol hle c hc
    rw [chunkSymbolRecursive_eq] at hc
    by_cases hd : d ≥ opts.max_recursion_depth
    · rw [if_pos hd] at hc
      simp only [List.mem_singleton] at hc
      subst hc
      simp
    · rw [if_neg hd] at hc
      split at hc
      · simp only [List.mem_singleton] at hc
        subst hc
        simp
      · split at hc
        · simp only [List.mem_singleton] at hc
          subst hc
          simp
        · rename_i sub_chunks htry
          split at hc
          · simp only [List.mem_singleton] at hc
            subst hc
            simp
          · rcases tryRecursiveChunking_cases opts oracle symbol d sub_chunks htry with
              hnil | ⟨subs, _, _, ⟨_, hl⟩ | ⟨_, hl⟩⟩
            · subst hnil
              exact absurd hc (by simp)
            · subst hl
              rcases List.mem_cons.mp hc with hcc | hcc
              · subst hcc
                simp
              · obtain ⟨s, _, hcs⟩ := (mem_chunkSymbolList _ _ _ _ _).mp hcc
                have := ih opts oracle (d + 1) s (by omega) c hcs
                omega
            · subst hl
              obtain ⟨s, _, hcs⟩ := (mem_chunkSymbolList _ _ _ _ _).mp hc
              have := ih opts oracle (d + 1) s (by omega) c hcs
              omega

/-- Every chunk produced at a call depth within the ceiling records a depth
of at most `max_recursion_depth`. -/
theorem chunk_depth_le_of_mem :
    ∀ (n : Nat) (opts : ChunkingOptions) (oracle : SubSymbolOracle) (d : Nat) (symbol : Symbol),
      opts.max_recursion_depth + 1 - d ≤ n → d ≤ opts.max_recursion_depth →
      ∀ c ∈ chunkSymbolRecursive opts oracle symbol d,
        c.chunk_metadata.chunk_depth ≤ opts.max_recursion_depth := by
  intro n
  induction n with
  | zero =>
    intro opts oracle d symbol hle hdm c hc
    rw [chunkSymbolRecursive_eq, if_pos (by omega : d ≥ opts.max_recursion_depth)] at hc
    simp only [List.mem_singleton] at hc
    subst hc
    simpa using hdm
  | succ n ih =>
    intro opts oracle d symbol hle hdm c hc
    rw [chunkSymbolRecursive_eq] at hc
    by_cases hd : d ≥ opts.max_recursion_depth
    · rw [if_pos hd] at hc
      simp only [List.mem_singleton] at hc
      subst hc
      simpa using hdm
    · rw [if_neg hd] at hc
      split at hc
      · simp only [List.mem_singleton] at hc
        subst hc
        simpa using hdm
      · split at hc
        · simp only [List.mem_singleton] at hc
          subst hc
          simpa using hdm
        · rename_i sub_chunks htry
          split at hc
          · simp only [List.mem_singleton] at hc
            subst hc
            simpa using hdm
          · rcases tryRecursiveChunking_cases opts oracle symbol d sub_chunks htry with
              hnil | ⟨subs, _, _, ⟨_, hl⟩ | ⟨_, hl⟩⟩
            · subst hnil
              exact absurd hc (by simp)
            · subst hl
              rcases List.mem_cons.mp hc with hcc | hcc
              · subst hcc
                simpa using hdm
              · obtain ⟨s, _, hcs⟩ := (mem_chunkSymbolList _ _ _ _ _).mp hcc
                exact ih opts oracle (d + 1) s (by omega) (by omega) c hcs
            · subst hl
              obtain ⟨s, _, hcs⟩ := (mem_chunkSymbolList _ _ _ _ _).mp hc
              exact ih opts oracle (d + 1) s (by omega) (by omega) c hcs

/-- C7.  For every list of input symbols, every chunking options value and
every sub-symbol extraction oracle, every chunk produced by hierarchical
decomposition records `chunk_depth ≤ max_recursion_depth`: recursion only
deepens while strictly below the ceiling, and each chunk records the depth
at which it was created. -/
theorem c7_chunk_depth_bounded (opts : ChunkingOptions) (oracle : SubSymbolOracle)
    (symbols : List Symbol) (c : CodeChunk)
    (hc : c ∈ chunkSymbols opts oracle symbols) :
    c.chunk_metadata.chunk_depth ≤ opts.max_recursion_depth := by
  obtain ⟨s, _, hcs⟩ := List.mem_flatMap.mp hc
  exact chunk_depth_le_of_mem (opts.max_recursion_depth + 1) opts oracle 0 s
    (by omega) (by omega) c hcs

theorem shouldCreateContainerChunk_eq_true (s : Symbol) (subs : List Symbol) :
    shouldCreateContainerChunk s subs = true ↔
      isContainerKind s.kind = true ∧ 1 < subs.length := by
  unfold shouldCreateContainerChunk
  simp only [Bool.and_eq_true, Bool.not_eq_true', List.isEmpty_eq_false, decide_eq_true_eq,
    gt_iff_lt]
  constructor
  · rintro ⟨⟨hk, _⟩, hl⟩
    exact ⟨hk, hl⟩
  · rintro ⟨hk, hl⟩
    refine ⟨⟨hk, ?_⟩, hl⟩
    cases subs with
    | nil => simp at hl
    | cons a t => simp

/-- The value of `try_recursive_chunking` when the sub-symbol extraction
succeeds: an empty `Ok` when no candidate survives the filter (including the
case of no candidates at all), otherwise the concatenated recursive chunks,
with the container chunk prepended when warranted. -/
theorem tryRecursiveChunking_oracle_some (opts : ChunkingOptions) (oracle : SubSymbolOracle)
    (symbol : Symbol) (d : Nat) (subs : List Symbol)
    (horacle : oracle symbol = some subs) :
    tryRecursiveChunking opts oracle symbol d =
      if (validSubSymbols opts symbol subs).isEmpty then
        some []
      else
        some (if shouldCreateContainerChunk symbol (validSubSymbols opts symbol subs) then
          createContainerChunk opts symbol d (validSubSymbols opts symbol subs) ::
            chunkSymbolList opts oracle (validSubSymbols opts symbol subs) (d + 1)
        else
          chunkSymbolList opts oracle (validSubSymbols opts symbol subs) (d + 1)) := by
  simp only [tryRecursiveChunking, horacle]
  by_cases hsub : subs.isEmpty
  · have hs : subs = [] := List.isEmpty_iff.mp hsub
    subst hs
    simp [validSubSymbols]
  · rw [if_neg hsub]

theorem tryRecursiveChunking_oracle_none (opts : ChunkingOptions) (oracle : SubSymbolOracle)
    (symbol : Symbol) (d : Nat) (horacle : oracle symbol = none) :
    tryRecursiveChunking opts oracle symbol d = none := by
  simp [tryRecursiveChunking, horacle]

/-- C4.  A container chunk for symbol `s` (a chunk flagged `is_container`
recorded at `s`'s own depth — every chunk coming from the recursive calls
records a strictly larger depth) is present in the output of
`try_recursive_chunking` iff `s.kind` is Impl, Module, Struct or Trait and
more than one sub-symbol survives the filter; when present it sits at index
0 of the combined list, carries `is_split = true`, and its
`original_size_lines` is `s`'s full span in lines. -/
theorem c4_container_chunk (opts : ChunkingOptions) (oracle : SubSymbolOracle)
    (symbol : Symbol) (d : Nat) (subs : List Symbol) (l : List CodeChunk)
    (horacle : oracle symbol = some subs)
    (htry : tryRecursiveChunking opts oracle symbol d = some l) :
    ((∃ c ∈ l, c.chunk_metadata.is_container = true ∧ c.chunk_metadata.chunk_depth = d) ↔
      (isContainerKind symbol.kind = true ∧ 1 < (validSubSymbols opts symbol subs).length)) ∧
    (∀ c ∈ l, c.chunk_metadata.is_container = true → c.chunk_metadata.chunk_depth = d →
      l.head? = some c ∧ c.chunk_metadata.is_split = true ∧
      c.chunk_metadata.original_size_lines = symbol.end_line - symbol.start_line + 1) := by
  rw [tryRecursiveChunking_oracle_some opts oracle symbol d subs horacle] at htry
  have hdepthL : ∀ c ∈ chunkSymbolList opts oracle (validSubSymbols opts symbol subs) (d + 1),
      d + 1 ≤ c.chunk_metadata.chunk_depth := by
    intro c hc
    obtain ⟨s, _, hcs⟩ := (mem_chunkSymbolList _ _ _ _ _).mp hc
    exact le_chunk_depth_of_mem (opts.max_recursion_depth + 1) opts oracle (d + 1) s
      (by omega) c hcs
  by_cases hv : (validSubSymbols opts symbol subs).isEmpty
  · rw [if_pos hv] at htry
    have hl : l = [] := (Option.some.inj htry).symm
    subst hl
    have hlen : (validSubSymbols opts symbol subs).length = 0 := by
      simp [List.isEmpty_iff.mp hv]
    constructor
    · simp [hlen]
    · intro c hc
      simp at hc
  · rw [if_neg hv] at htry
    by_cases hsh : shouldCreateContainerChunk symbol (validSubSymbols opts symbol subs) = true
    · rw [if_pos hsh] at htry
      have hl := (Option.some.inj htry).symm
      subst hl
      constructor
      · constructor
        · intro _
          exact (shouldCreateContainerChunk_eq_true _ _).mp hsh
        · intro _
          exact ⟨createContainerChunk opts symbol d (validSubSymbols opts symbol subs),
            List.mem_cons_self _ _, by simp, by simp⟩
      · intro c hc _ hdep
        rcases List.mem_cons.mp hc with hcc | hcL
        · subst hcc
          exact ⟨rfl, by simp, by simp⟩
        · exact absurd hdep (by have := hdepthL c hcL; omega)
    · rw [if_neg hsh] at htry
      have hl := (Option.some.inj htry).symm
      subst hl
      constructor
      · constructor
        · rintro ⟨c, hc, _, hdep⟩
          exact absurd hdep (by have := hdepthL c hc; omega)
        · rintro ⟨hk, hlen⟩
          exact absurd ((shouldCreateContainerChunk_eq_true _ _).mpr ⟨hk, hlen⟩) hsh
      · intro c hc _ hdep
        exact absurd hdep (by have := hdepthL c hc; omega)

/-- A 300-line impl symbol used as concrete input. -/
def c4ParentSymbol : Symbol :=
  ⟨"impl Big", .Impl, "impl Big \x7b /* three hundred lines */ \x7d", "big.rs",
    1, 300, 0, 1, none⟩

/-- First surviving sub-symbol of `c4ParentSymbol`. -/
def c4SubA : Symbol :=
  ⟨"alpha", .Method, "fn alpha(&self) \x7b\x7d", "big.rs", 2, 150, 4, 5, some "impl Big"⟩

/-- Second surviving sub-symbol of `c4ParentSymbol`. -/
def c4SubB : Symbol :=
  ⟨"beta", .Method, "fn beta(&self) \x7b\x7d", "big.rs", 151, 299, 4, 5, some "impl Big"⟩

/-- A concrete extraction oracle that finds the two methods inside
`c4ParentSymbol` and nothing anywhere else. -/
def c4Oracle : SubSymbolOracle := fun s =>
  if s.name = "impl Big" then some [c4SubA, c4SubB] else none

/-- Witness for C4 at the concrete oversized impl with two surviving
methods: the container chunk is present at depth 0. -/
theorem c4_container_chunk_witness :
    ∃ c ∈ (createContainerChunk ChunkingOptions.default c4ParentSymbol 0 [c4SubA, c4SubB] ::
        chunkSymbolList ChunkingOptions.default c4Oracle [c4SubA, c4SubB] 1),
      c.chunk_metadata.is_container = true ∧ c.chunk_metadata.chunk_depth = 0 := by
  have horacle : c4Oracle c4ParentSymbol = some [c4SubA, c4SubB] := rfl
  have hval : validSubSymbols ChunkingOptions.default c4ParentSymbol [c4SubA, c4SubB] =
      [c4SubA, c4SubB] := by decide
  have htry : tryRecursiveChunking ChunkingOptions.default c4Oracle c4ParentSymbol 0 =
      some (createContainerChunk ChunkingOptions.default c4ParentSymbol 0 [c4SubA, c4SubB] ::
        chunkSymbolList ChunkingOptions.default c4Oracle [c4SubA, c4SubB] 1) := by
    rw [tryRecursiveChunking_oracle_some _ _ _ _ _ horacle, hval]
    simp [shouldCreateContainerChunk, isContainerKind, c4ParentSymbol]
  exact (c4_container_chunk _ _ _ _ _ _ horacle htry).1.mpr ⟨rfl, by rw [hval]; decide⟩

/-- The small-symbol branch of `chunk_symbol_recursive`: below the depth
ceiling, a symbol that fits in `max_lines_per_chunk` yields one unsplit
chunk. -/
theorem chunkSymbolRecursive_small (opts : ChunkingOptions) (oracle : SubSymbolOracle)
    (symbol : Symbol) (d : Nat) (hd : d < opts.max_recursion_depth)
    (hsize : symbol.end_line - symbol.start_line + 1 ≤ opts.max_lines_per_chunk) :
    chunkSymbolRecursive opts oracle symbol d = [createChunkFromSymbol opts symbol d false] := by
  rw [chunkSymbolRecursive_eq, if_neg (by omega), if_pos hsize]

/-- The decomposition-error fallback of `chunk_symbol_recursive`. -/
theorem chunkSymbolRecursive_oracle_err (opts : ChunkingOptions) (oracle : SubSymbolOracle)
    (symbol : Symbol) (d : Nat) (hd : d < opts.max_recursion_depth)
    (hsize : opts.max_lines_per_chunk < symbol.end_line - symbol.start_line + 1)
    (hnone : oracle symbol = none) :
    chunkSymbolRecursive opts oracle symbol d = [createChunkFromSymbol opts symbol d true] := by
  rw [chunkSymbolRecursive_eq, if_neg (by omega), if_neg (by omega),
    tryRecursiveChunking_oracle_none opts oracle symbol d hnone]

/-- The no-surviving-sub-symbols fallback of `chunk_symbol_recursive`. -/
theorem chunkSymbolRecursive_no_valid (opts : ChunkingOptions) (oracle : SubSymbolOracle)
    (symbol : Symbol) (d : Nat) (subs : List Symbol) (hd : d < opts.max_recursion_depth)
    (hsize : opts.max_lines_per_chunk < symbol.end_line - symbol.start_line + 1)
    (horacle : oracle symbol = some subs)
    (hvalid : validSubSymbols opts symbol subs = []) :
    chunkSymbolRecursive opts oracle symbol d = [createChunkFromSymbol opts symbol d true] := by
  rw [chunkSymbolRecursive_eq, if_neg (by omega), if_neg (by omega),
    tryRecursiveChunking_oracle_some opts oracle symbol d subs horacle, hvalid]
  simp

/-- C6.  The surviving sub-symbols are exactly the candidates whose line
count is at least `min_lines_per_chunk` and whose name differs from the
parent's; at a depth below the ceiling, an oversized symbol whose
decomposition fails (oracle error) or whose candidates are all filtered out
is emitted as one chunk with `is_split = true`, while a symbol that fits
within `max_lines_per_chunk` is emitted as one chunk with
`is_split = false`; the fallback chunk is never a container chunk. -/
theorem c6_filter_and_fallback (opts : ChunkingOptions) (oracle : SubSymbolOracle)
    (symbol : Symbol) (d : Nat) (hd : d < opts.max_recursion_depth) :
    (∀ subs sub, sub ∈ validSubSymbols opts symbol subs ↔
       (sub ∈ subs ∧ opts.min_lines_per_chunk ≤ sub.end_line - sub.start_line + 1 ∧
         sub.name ≠ symbol.name)) ∧
    (opts.max_lines_per_chunk < symbol.end_line - symbol.start_line + 1 →
      (oracle symbol = none →
        chunkSymbolRecursive opts oracle symbol d = [createChunkFromSymbol opts symbol d true]) ∧
      (∀ subs, oracle symbol = some subs → validSubSymbols opts symbol subs = [] →
        chunkSymbolRecursive opts oracle symbol d = [createChunkFromSymbol opts symbol d true])) ∧
    (symbol.end_line - symbol.start_line + 1 ≤ opts.max_lines_per_chunk →
      chunkSymbolRecursive opts oracle symbol d = [createChunkFromSymbol opts symbol d false]) ∧
    (∀ b, (createChunkFromSymbol opts symbol d b).chunk_metadata.is_split = b ∧
      (createChunkFromSymbol opts symbol d b).chunk_metadata.is_container = false) := by
  refine ⟨?_, ?_, ?_, ?_⟩
  · intro subs sub
    simp [validSubSymbols, List.mem_filter]
  · intro hsize
    exact ⟨fun hnone => chunkSymbolRecursive_oracle_err opts oracle symbol d hd hsize hnone,
      fun subs horacle hvalid =>
        chunkSymbolRecursive_no_valid opts oracle symbol d subs hd hsize horacle hvalid⟩
  · intro hsize
    exact chunkSymbolRecursive_small opts oracle symbol d hd hsize
  · intro b
    exact ⟨rfl, rfl⟩

/-- A 300-line plain function symbol used as concrete input. -/
def bigPlainSymbol : Symbol :=
  ⟨"huge", .Function, "fn huge() \x7b /* three hundred lines */ \x7d", "huge.rs",
    1, 300, 0, 1, none⟩

/-- Witness for C6: at depth 0 (below the default ceiling of 5), the
oversized symbol whose re-parse fails is emitted as a single chunk with the
`is_split = true` marker. -/
theorem c6_filter_and_fallback_witness :
    chunkSymbolRecursive ChunkingOptions.default (fun _ => none) bigPlainSymbol 0 =
      [createChunkFromSymbol ChunkingOptions.default bigPlainSymbol 0 true] ∧
    (createChunkFromSymbol ChunkingOptions.default bigPlainSymbol 0 true).chunk_metadata.is_split
      = true := by
  have h := c6_filter_and_fallback ChunkingOptions.default (fun _ => none) bigPlainSymbol 0
    (by decide)
  exact ⟨(h.2.1 (by decide)).1 rfl, (h.2.2.2 true).1⟩

/-- Witness for C7: the single chunk of a small symbol, produced at depth 0,
respects the depth bound of the default options. -/
theorem c7_chunk_depth_bounded_witness :
    (createChunkFromSymbol ChunkingOptions.default
        ⟨"tiny", .Function, "fn tiny() \x7b\x7d", "t.rs", 1, 1, 0, 1, none⟩ 0
        false).chunk_metadata.chunk_depth ≤
      ChunkingOptions.default.max_recursion_depth := by
  apply c7_chunk_depth_bounded ChunkingOptions.default (fun _ => none)
    [⟨"tiny", .Function, "fn tiny() \x7b\x7d", "t.rs", 1, 1, 0, 1, none⟩]
  have h := chunkSymbolRecursive_small ChunkingOptions.default (fun _ => none)
    ⟨"tiny", .Function, "fn tiny() \x7b\x7d", "t.rs", 1, 1, 0, 1, none⟩ 0 (by decide) (by decide)
  simp [chunkSymbols, h]

/-! ### Rust symbol extraction (`symbol.rs`, `traverse_rust_node`)

The tree-sitter concrete syntax tree is embedded as a rose tree of nodes
carrying kind, verbatim text, start/end position (row and column,
0-indexed) and ordered children, matching the `tree_sitter::Node` interface
the extractor consumes. -/

/-- A tree-sitter node: kind, verbatim text, start/end position and ordered
children (anonymous token nodes included, as in `Node::children`). -/
inductive RustNode where
  | node (kind : String) (text : String)
      (startRow startColumn endRow endColumn : Nat)
      (children : List RustNode)

def RustNode.kind : RustNode → String
  | .node k _ _ _ _ _ _ => k

def RustNode.text : RustNode → String
  | .node _ t _ _ _ _ _ => t

def RustNode.startRow : RustNode → Nat
  | .node _ _ r _ _ _ _ => r

def RustNode.startColumn : RustNode → Nat
  | .node _ _ _ c _ _ _ => c

def RustNode.endRow : RustNode → Nat
  | .node _ _ _ _ r _ _ => r

def RustNode.endColumn : RustNode → Nat
  | .node _ _ _ _ _ c _ => c

def RustNode.children : RustNode → List RustNode
  | .node _ _ _ _ _ _ cs => cs

/-- `find_child_text` from `symbol.rs`: the text of the first child whose
kind matches. -/
def findChildText (node : RustNode) (kind : String) : Option String :=
  (node.children.find? (fun c => decide (c.kind = kind))).map (·.text)

/-- `extract_rust_function` from `symbol.rs`: name from the first
`identifier` child, `Method` when a context is set, `Function` otherwise. -/
def extractRustFunction (file_path : String) (node : RustNode) (context : Option String) :
    Except String Symbol :=
  match findChildText node "identifier" with
  | none => .error "Function missing name"
  | some name => .ok
      { name
        kind := if context.isSome then .Method else .Function
        content := node.text
        file_path
        start_line := node.startRow + 1
        end_line := node.endRow + 1
        start_column := node.startColumn
        end_column := node.endColumn
        context }

/-- `extract_rust_struct` from `symbol.rs`. -/
def extractRustStruct (file_path : String) (node : RustNode) (context : Option String) :
    Except String Symbol :=
  match findChildText node "type_identifier" with
  | none => .error "Struct missing name"
  | some name => .ok
      { name
        kind := .Struct
        content := node.text
        file_path
        start_line := node.startRow + 1
        end_line := node.endRow + 1
        start_column := node.startColumn
        end_column := node.endColumn
        context }

/-- `extract_rust_enum` from `symbol.rs`. -/
def extractRustEnum (file_path : String) (node : RustNode) (context : Option String) :
    Except String Symbol :=
  match findChildText node "type_identifier" with
  | none => .error "Enum missing name"
  | some name => .ok
      { name
        kind := .Enum
        content := node.text
        file_path
        start_line := node.startRow + 1
        end_line := node.endRow + 1
        start_column := node.startColumn
        end_column := node.endColumn
        context }

/-- `extract_rust_trait` from `symbol.rs`. -/
def extractRustTrait (file_path : String) (node : RustNode) (context : Option String) :
    Except String Symbol :=
  match findChildText node "type_identifier" with
  | none => .error "Trait missing name"
  | some name => .ok
      { name
        kind := .Trait
        content := node.text
        file_path
        start_line := node.startRow + 1
        end_line := node.endRow + 1
        start_column := node.startColumn
        end_column := node.endColumn
        context }

/-- `extract_rust_impl` from `symbol.rs`: the symbol name is the literal
string `impl ` followed by the implemented type name (or the placeholder
`impl` when no `type_identifier` child exists). -/
def extractRustImpl (file_path : String) (node : RustNode) (context : Option String) :
    Except String Symbol :=
  let name := (findChildText node "type_identifier").getD "impl"
  .ok
    { name := "impl " ++ name
      kind := .Impl
      content := node.text
      file_path
      start_line := node.startRow + 1
      end_line := node.endRow + 1
      start_column := node.startColumn
      end_column := node.endColumn
      context }

/-- `extract_rust_constant` from `symbol.rs`. -/
def extractRustConstant (file_path : String) (node : RustNode) (context : Option String) :
    Except String Symbol :=
  match findChildText node "identifier" with
  | none => .error "Constant missing name"
  | some name => .ok
      { name
        kind := .Constant
        content := node.text
        file_path
        start_line := node.startRow + 1
        end_line := node.endRow + 1
        start_column := node.startColumn
        end_column := node.endColumn
        context }

/-- `extract_rust_module` from `symbol.rs`. -/
def extractRustModule (file_path : String) (node : RustNode) (context : Option String) :
    Except String Symbol :=
  match findChildText node "identifier" with
  | none => .error "Module missing name"
  | some name => .ok
      { name
        kind := .Module
        content := node.text
        file_path
        start_line := node.startRow + 1
        end_line := node.endRow + 1
        start_column := node.startColumn
        end_column := node.endColumn
        context }

mutual

/-- `traverse_rust_node` from `symbol.rs`: push the symbol for a matched
node kind; for `struct_item` and `impl_item` re-traverse the children with
the container's symbol name as context and return early; all other matched
kinds (and unmatched kinds) fall through to traversing the children with
the inherited context unchanged. -/
def traverseRustNode (file_path : String) (n : RustNode) (context : Option String) :
    Except String (List Symbol) :=
  match n with
  | .node k text sr sc er ec children =>
    let node := RustNode.node k text sr sc er ec children
    match k with
    | "function_item" => do
      let symbol ← extractRustFunction file_path node context
      let rest ← traverseRustList file_path children context
      pure (symbol :: rest)
    | "struct_item" => do
      let symbol ← extractRustStruct file_path node context
      let struct_name := symbol.name
      let rest ← traverseRustList file_path children (some struct_name)
      pure (symbol :: rest)
    | "enum_item" => do
      let symbol ← extractRustEnum file_path node context
      let rest ← traverseRustList file_path children context
      pure (symbol :: rest)
    | "trait_item" => do
      let symbol ← extractRustTrait file_path node context
      let rest ← traverseRustList file_path children context
      pure (symbol :: rest)
    | "impl_item" => do
      let symbol ← extractRustImpl file_path node context
      let impl_context := some symbol.name
      let rest ← traverseRustList file_path children impl_context
      pure (symbol :: rest)
    | "const_item" => do
      let symbol ← extractRustConstant file_path node context
      let rest ← traverseRustList file_path children context
      pure (symbol :: rest)
    | "static_item" => do
      let symbol ← extractRustConstant file_path node context
      let rest ← traverseRustList file_path children context
      pure (symbol :: rest)
    | "mod_item" => do
      let symbol ← extractRustModule file_path node context
      let rest ← traverseRustList file_path children context
      pure (symbol :: rest)
    | _ => traverseRustList file_path children context

/-- The `for child in node.children` loop of `traverse_rust_node`. -/
def traverseRustList (file_path : String) (nodes : List RustNode) (context : Option String) :
    Except String (List Symbol) :=
  match nodes with
  | [] => .ok []
  | n :: rest => do
    let s ← traverseRustNode file_path n context
    let r ← traverseRustList file_path rest context
    pure (s ++ r)

end

/-- The tree-sitter `struct_item` node of `struct Point` (rows 0-3). -/
def pointStructNode : RustNode :=
  .node "struct_item" "struct Point \x7b\n    x: f64,\n    y: f64,\n\x7d" 0 0 3 1
    [ .node "struct" "struct" 0 0 0 6 [],
      .node "type_identifier" "Point" 0 7 0 12 [],
      .node "field_declaration_list" "\x7b\n    x: f64,\n    y: f64,\n\x7d" 0 13 3 1 [] ]

/-- The tree-sitter `function_item` node of the inherent method
`distance` (rows 6-8). -/
def pointDistanceNode : RustNode :=
  .node "function_item"
    "fn distance(&self) -> f64 \x7b\n        (self.x * self.x + self.y * self.y).sqrt()\n    \x7d"
    6 4 8 5
    [ .node "fn" "fn" 6 4 6 6 [],
      .node "identifier" "distance" 6 7 6 15 [],
      .node "parameters" "(&self)" 6 15 6 22 [],
      .node "primitive_type" "f64" 6 26 6 29 [],
      .node "block"
        "\x7b\n        (self.x * self.x + self.y * self.y).sqrt()\n    \x7d" 6 30 8 5 [] ]

/-- The tree-sitter `impl_item` node of `impl Point` (rows 5-9). -/
def pointImplNode : RustNode :=
  .node "impl_item"
    "impl Point \x7b\n    fn distance(&self) -> f64 \x7b\n        (self.x * self.x + self.y * self.y).sqrt()\n    \x7d\n\x7d"
    5 0 9 1
    [ .node "impl" "impl" 5 0 5 4 [],
      .node "type_identifier" "Point" 5 5 5 10 [],
      .node "declaration_list"
        "\x7b\n    fn distance(&self) -> f64 \x7b\n        (self.x * self.x + self.y * self.y).sqrt()\n    \x7d\n\x7d"
        5 11 9 1 [pointDistanceNode] ]

/-- The `source_file` root for the Point scenario: a struct with two fields
followed by an impl block holding one inherent method, everything far below
the 200-line default size threshold. -/
def pointExampleTree : RustNode :=
  .node "source_file"
    "struct Point \x7b\n    x: f64,\n    y: f64,\n\x7d\n\nimpl Point \x7b\n    fn distance(&self) -> f64 \x7b\n        (self.x * self.x + self.y * self.y).sqrt()\n    \x7d\n\x7d"
    0 0 9 1 [pointStructNode, pointImplNode]

/-- The struct symbol the extractor yields for the Point scenario. -/
def pointStructSymbol : Symbol :=
  ⟨"Point", .Struct, "struct Point \x7b\n    x: f64,\n    y: f64,\n\x7d", "point.rs",
    1, 4, 0, 1, none⟩

/-- The impl symbol the extractor yields for the Point scenario: its name is
the synthesized `impl Point`, not the bare type name. -/
def pointImplSymbol : Symbol :=
  ⟨"impl Point", .Impl,
    "impl Point \x7b\n    fn distance(&self) -> f64 \x7b\n        (self.x * self.x + self.y * self.y).sqrt()\n    \x7d\n\x7d",
    "point.rs", 6, 10, 0, 1, none⟩

/-- The method symbol the extractor yields for the Point scenario: its
context is the impl symbol's name `impl Point`. -/
def pointDistanceSymbol : Symbol :=
  ⟨"distance", .Method,
    "fn distance(&self) -> f64 \x7b\n        (self.x * self.x + self.y * self.y).sqrt()\n    \x7d",
    "point.rs", 7, 9, 4, 5, some "impl Point"⟩

/-- The full extractor output for the Point scenario. -/
def pointExtractedSymbols : List Symbol :=
  [pointStructSymbol, pointImplSymbol, pointDistanceSymbol]

/-- Counterexample to C3 as stated: on the Point scenario tree the extractor
does yield `Struct Point`, but no extracted symbol is a `Method` with
context `Some("Point")` — the method's context is the impl wrapper's
synthesized name `impl Point` — and the chunker emits three chunks (struct,
impl, method), not two. -/
theorem c3_claim_counterexample :
    traverseRustNode "point.rs" pointExampleTree none = Except.ok pointExtractedSymbols ∧
    pointExtractedSymbols.all
      (fun s => !(decide (s.kind = SymbolKind.Method) && decide (s.context = some "Point")))
      = true ∧
    (chunkSymbols ChunkingOptions.default (fun _ => none) pointExtractedSymbols).length = 3 := by
  refine ⟨by rfl, by decide, ?_⟩
  have h1 := chunkSymbolRecursive_small ChunkingOptions.default (fun _ => none)
    pointStructSymbol 0 (by decide) (by decide)
  have h2 := chunkSymbolRecursive_small ChunkingOptions.default (fun _ => none)
    pointImplSymbol 0 (by decide) (by decide)
  have h3 := chunkSymbolRecursive_small ChunkingOptions.default (fun _ => none)
    pointDistanceSymbol 0 (by decide) (by decide)
  simp [chunkSymbols, pointExtractedSymbols, h1, h2, h3]

/-- C3 amended.  On the Point scenario tree the extractor yields, in order,
`Struct Point`, `Impl "impl Point"` and `Method distance` with context
`Some("impl Point")`; the chunker with default options then yields three
unsplit chunks and no container chunk. -/
theorem c3_point_scenario :
    traverseRustNode "point.rs" pointExampleTree none = Except.ok pointExtractedSymbols ∧
    pointExtractedSymbols.map (fun s => (s.name, s.kind, s.context)) =
      [("Point", SymbolKind.Struct, none),
       ("impl Point", SymbolKind.Impl, none),
       ("distance", SymbolKind.Method, some "impl Point")] ∧
    (chunkSymbols ChunkingOptions.default (fun _ => none) pointExtractedSymbols).map
        (fun c => (c.symbol_name, c.chunk_metadata.is_split, c.chunk_metadata.is_container)) =
      [("Point", false, false), ("impl Point", false, false), ("distance", false, false)] := by
  refine ⟨by rfl, by decide, ?_⟩
  have h1 := chunkSymbolRecursive_small ChunkingOptions.default (fun _ => none)
    pointStructSymbol 0 (by decide) (by decide)
  have h2 := chunkSymbolRecursive_small ChunkingOptions.default (fun _ => none)
    pointImplSymbol 0 (by decide) (by decide)
  have h3 := chunkSymbolRecursive_small ChunkingOptions.default (fun _ => none)
    pointDistanceSymbol 0 (by decide) (by decide)
  simp only [chunkSymbols, pointExtractedSymbols, List.flatMap_cons, List.flatMap_nil,
    h1, h2, h3]
  decide

/-! ### Synchronization sessions (`vector_db.rs`, `file_state.rs`)

The filesystem is embedded as an association list from current-directory
relative path to entry; `init_session` and `restore_session` are embedded as
functions from filesystem to a mutation trace (how many `upsert_points` and
`delete_points` calls reach the vector store) plus the resulting filesystem. -/

/-- A file on disk: ordinary text, or the serialized `CodebaseState`
snapshot (the JSON serialization is kept abstract, only its round-tripping
matters). -/
inductive FsEntry where
  | text (s : String)
  | snapshot (st : StateMap)
deriving Repr, DecidableEq

/-- A filesystem rooted at the project directory (which is also the current
directory: both `init_session` and `restore_session` call
`set_current_dir(root_path)` before touching the snapshot file). -/
abbrev Fs := List (String × FsEntry)

/-- `std::fs::write`: replace the entry when the path exists, create it
otherwise. -/
def fsWrite : Fs → String → FsEntry → Fs
  | [], p, e => [(p, e)]
  | (q, v) :: rest, p, e =>
    if q = p then (p, e) :: rest else (q, v) :: fsWrite rest p e

/-- `std::fs::exists` on the modeled filesystem. -/
def fsExists (fs : Fs) (p : String) : Bool :=
  (fs.map Prod.fst).contains p

/-- Read an entry. -/
def fsLookup : Fs → String → Option FsEntry
  | [], _ => none
  | (q, v) :: rest, p => if q = p then some v else fsLookup rest p

/-- Path resolution relative to the current directory: `./x` and `x` name
the same filesystem entry.  The model stores keys in the `./`-free form. -/
def resolveDotSlash (p : String) : String :=
  match p.data with
  | '.' :: '/' :: rest => String.mk rest
  | _ => p

/-- The path literal `CodebaseState::to_file` and `CodebaseState::from_file`
use (`file_state.rs` lines 13 and 20). -/
def toFileIndexPath : String := "./rua.index.json"

/-- The file name `restore_session` probes for, joined to the root
(`vector_db.rs` line 308: `root_path.as_ref().join(".rua.index.json")`). -/
def restoreProbeName : String := ".rua.index.json"

/-- Whether the first character list starts with the second. -/
def charsStartWith : List Char → List Char → Bool
  | _, [] => true
  | [], _ :: _ => false
  | a :: as, b :: bs => a == b && charsStartWith as bs

/-- Whether the first character list ends with the second. -/
def charsEndWith (p suffix : List Char) : Bool :=
  charsStartWith p.reverse suffix.reverse

/-- `is_supported_file_extension` from `walk_utils.rs`, modeled on path
strings: extension `rs`, `py` or `go`. -/
def isSupportedFileExtensionStr (p : String) : Bool :=
  charsEndWith p.data ".rs".data || charsEndWith p.data ".py".data ||
    charsEndWith p.data ".go".data

/-- `collect_supported_file_states` from `vector_db.rs`: walk the tree and
fingerprint every supported file.  `md5fn` abstracts the md5 hex digest of
the file content, `mtime` the filesystem modification timestamp. -/
def collectSupportedFileStates (md5fn : String → String) (mtime : String → Nat)
    (fs : Fs) : StateMap :=
  fs.filterMap (fun pe =>
    match pe.2 with
    | .text c =>
      if isSupportedFileExtensionStr pe.1 then
        some (pe.1, ⟨md5fn c, mtime pe.1⟩)
      else
        none
    | .snapshot _ => none)

/-- `CodebaseState::to_file` (`file_state.rs` lines 12-17): serialize the
snapshot and `fs::write` it to `./rua.index.json`, which resolves to the
entry `rua.index.json` in the current (= root) directory. -/
def codebaseStateToFile (st : StateMap) (fs : Fs) : Fs :=
  fsWrite fs (resolveDotSlash toFileIndexPath) (.snapshot st)

/-- The store mutations issued during one sync run. -/
structure StoreTrace where
  upsert_calls : Nat
  delete_calls : Nat
deriving Repr, DecidableEq

/-- `init_session` from `vector_db.rs`, reduced to its store-mutation and
filesystem effects: create the collection, chunk and embed the whole
codebase, issue one bulk `upsert_points` call, collect the file states and
persist them through `CodebaseState::to_file`. -/
def initSessionModel (md5fn : String → String) (mtime : String → Nat)
    (fs : Fs) : StoreTrace × Fs :=
  (⟨1, 0⟩, codebaseStateToFile (collectSupportedFileStates md5fn mtime fs) fs)

/-- `restore_session` from `vector_db.rs`, reduced to its store-mutation and
filesystem effects.  The probe at `.rua.index.json` decides between the
diff path and a fresh `init_session`; on the diff path, the saved snapshot
is read back through `CodebaseState::from_file` (which reads
`./rua.index.json`; `none` models its error return when that file is
missing or unparsable), the current tree is fingerprinted, the change sets
are computed, and, only when some set is nonempty, one `delete_points` call
covers `deleted ++ modified`, one `upsert_points` call covers the chunks of
`added ++ modified` (`hasChunks` abstracts whether chunking produced any),
and the snapshot file is rewritten. -/
def restoreSessionModel (md5fn : String → String) (mtime : String → Nat)
    (hasChunks : List String → Bool) (fs : Fs) : Option (StoreTrace × Fs) :=
  if fsExists fs restoreProbeName then
    match fsLookup fs (resolveDotSlash toFileIndexPath) with
    | some (.snapshot saved) =>
      let current := collectSupportedFileStates md5fn mtime fs
      let ch := classifyChanges saved current
      if ch.added.isEmpty && ch.modified.isEmpty && ch.deleted.isEmpty then
        some (⟨0, 0⟩, fs)
      else
        let files_to_delete := ch.deleted ++ ch.modified
        let files_to_process := ch.added ++ ch.modified
        some (⟨if !files_to_process.isEmpty && hasChunks files_to_process then 1 else 0,
               if !files_to_delete.isEmpty then 1 else 0⟩,
              codebaseStateToFile current fs)
    | _ => none
  else
    some (initSessionModel md5fn mtime fs)

/-- `restore_session` as it was evidently meant to behave (and as the
surrounding doc comments describe): identical to `restoreSessionModel`
except that the existence probe targets the very file that
`CodebaseState::to_file` writes. -/
def restoreSessionIntendedModel (md5fn : String → String) (mtime : String → Nat)
    (hasChunks : List String → Bool) (fs : Fs) : Option (StoreTrace × Fs) :=
  if fsExists fs (resolveDotSlash toFileIndexPath) then
    match fsLookup fs (resolveDotSlash toFileIndexPath) with
    | some (.snapshot saved) =>
      let current := collectSupportedFileStates md5fn mtime fs
      let ch := classifyChanges saved current
      if ch.added.isEmpty && ch.modified.isEmpty && ch.deleted.isEmpty then
        some (⟨0, 0⟩, fs)
      else
        let files_to_delete := ch.deleted ++ ch.modified
        let files_to_process := ch.added ++ ch.modified
        some (⟨if !files_to_process.isEmpty && hasChunks files_to_process then 1 else 0,
               if !files_to_delete.isEmpty then 1 else 0⟩,
              codebaseStateToFile current fs)
    | _ => none
  else
    some (initSessionModel md5fn mtime fs)

/-- A one-file project, unchanged between the two runs. -/
def c1ProjectFs : Fs := [("main.rs", .text "fn main() \x7b\x7d")]

/-- The filesystem after the first run: the project file plus the snapshot,
written under the name `rua.index.json` that `"./rua.index.json"` resolves
to (taking the md5 abstraction as the identity and all timestamps as 1). -/
def c1FsAfterFirstRun : Fs :=
  [("main.rs", .text "fn main() \x7b\x7d"),
   ("rua.index.json", .snapshot [("main.rs", ⟨"fn main() \x7b\x7d", 1⟩)])]

/-- C1, evaluated at the failing input.  `CodebaseState::to_file` writes the
snapshot to `rua.index.json` (the resolution of its literal
`./rua.index.json`), but `restore_session` probes for `.rua.index.json`; on
a project with one unchanged file the first run initializes and issues one
upsert call, and the second run — instead of finding the snapshot,
computing an empty diff and mutating nothing — misses the probe again,
re-runs the full initialization, and issues one upsert call instead of the
claimed zero.  The diff logic itself is correct: with the probe pointed at
the file that was actually written, the second run issues zero upsert and
zero delete calls and leaves the filesystem untouched. -/
theorem c1_second_run_reinitializes :
    resolveDotSlash toFileIndexPath = "rua.index.json" ∧
    restoreProbeName = ".rua.index.json" ∧
    restoreSessionModel (fun s => s) (fun _ => 1) (fun _ => true) c1ProjectFs =
      some (⟨1, 0⟩, c1FsAfterFirstRun) ∧
    restoreSessionModel (fun s => s) (fun _ => 1) (fun _ => true) c1FsAfterFirstRun =
      some (⟨1, 0⟩, c1FsAfterFirstRun) ∧
    restoreSessionIntendedModel (fun s => s) (fun _ => 1) (fun _ => true) c1FsAfterFirstRun =
      some (⟨0, 0⟩, c1FsAfterFirstRun) := by
  refine ⟨rfl, rfl, by decide, by decide, by decide⟩

/-! ### Point identifiers (`vector_db.rs`, `generate_point_id`)

`generate_point_id` feeds the path bytes, the decimal line numbers and the
name bytes to a SHA-256 hasher and formats the first 32 hex characters of
the digest as a UUID-shaped string.  SHA-256 is implemented here over
natural numbers (32-bit words represented as naturals reduced mod `2 ^ 32`),
so every identifier can be computed inside the logic. -/

/-- `2 ^ 32`, the word modulus. -/
def w32 : Nat := 4294967296

/-- Right-rotation of a 32-bit word. -/
def rotr32 (n x : Nat) : Nat :=
  (x / 2 ^ n + x % 2 ^ n * 2 ^ (32 - n)) % w32

/-- SHA-256 big sigma 0. -/
def bsig0 (x : Nat) : Nat := rotr32 2 x ^^^ rotr32 13 x ^^^ rotr32 22 x

/-- SHA-256 big sigma 1. -/
def bsig1 (x : Nat) : Nat := rotr32 6 x ^^^ rotr32 11 x ^^^ rotr32 25 x

/-- SHA-256 small sigma 0. -/
def ssig0 (x : Nat) : Nat := rotr32 7 x ^^^ rotr32 18 x ^^^ x / 2 ^ 3

/-- SHA-256 small sigma 1. -/
def ssig1 (x : Nat) : Nat := rotr32 17 x ^^^ rotr32 19 x ^^^ x / 2 ^ 10

/-- SHA-256 choose. -/
def chf (x y z : Nat) : Nat := (x &&& y) ^^^ ((x ^^^ (w32 - 1)) &&& z)

/-- SHA-256 majority. -/
def majf (x y z : Nat) : Nat := (x &&& y) ^^^ (x &&& z) ^^^ (y &&& z)

/-- The 64 SHA-256 round constants (decimal). -/
def sha256K : List Nat :=
  [1116352408, 1899447441, 3049323471, 3921009573, 961987163, 1508970993,
   2453635748, 2870763221, 3624381080, 310598401, 607225278, 1426881987,
   1925078388, 2162078206, 2614888103, 3248222580, 3835390401, 4022224774,
   264347078, 604807628, 770255983, 1249150122, 1555081692, 1996064986,
   2554220882, 2821834349, 2952996808, 3210313671, 3336571891, 3584528711,
   113926993, 338241895, 666307205, 773529912, 1294757372, 1396182291,
   1695183700, 1986661051, 2177026350, 2456956037, 2730485921, 2820302411,
   3259730800, 3345764771, 3516065817, 3600352804, 4094571909, 275423344,
   430227734, 506948616, 659060556, 883997877, 958139571, 1322822218,
   1537002063, 1747873779, 1955562222, 2024104815, 2227730452, 2361852424,
   2428436474, 2756734187, 3204031479, 3329325298]

/-- The initial SHA-256 hash value (decimal). -/
def sha256InitH : List Nat :=
  [1779033703, 3144134277, 1013904242, 2773480762,
   1359893119, 2600822924, 528734635, 1541459225]

/-- Big-endian bytes of a natural, `k` bytes wide. -/
def toBytesBE (k n : Nat) : List Nat :=
  (List.range k).map (fun i => n / 2 ^ (8 * (k - 1 - i)) % 256)

/-- SHA-256 padding: append `0x80`, zero bytes up to 56 mod 64, and the
message bit length as 8 big-endian bytes. -/
def padMessage (msg : List Nat) : List Nat :=
  let padLen := (119 - msg.length % 64) % 64
  msg ++ [128] ++ List.replicate padLen 0 ++ toBytesBE 8 (8 * msg.length % 2 ^ 64)

/-- Big-endian 32-bit words of a byte list (whole 4-byte groups). -/
def bytesToWords : List Nat → List Nat
  | a :: b :: c :: d :: rest => (((a * 256 + b) * 256 + c) * 256 + d) :: bytesToWords rest
  | _ => []

/-- Split a word list into 16-word blocks (whole blocks). -/
def wordBlocks : List Nat → List (List Nat)
  | w0 :: w1 :: w2 :: w3 :: w4 :: w5 :: w6 :: w7 ::
      w8 :: w9 :: w10 :: w11 :: w12 :: w13 :: w14 :: w15 :: rest =>
    [w0, w1, w2, w3, w4, w5, w6, w7, w8, w9, w10, w11, w12, w13, w14, w15] ::
      wordBlocks rest
  | _ => []

/-- Extend the message schedule by `n` further words. -/
def extendSchedule : Nat → List Nat → List Nat
  | 0, w => w
  | n + 1, w =>
    let t := w.length
    let nw := (ssig1 (w.getD (t - 2) 0) + w.getD (t - 7) 0 +
      ssig0 (w.getD (t - 15) 0) + w.getD (t - 16) 0) % w32
    extendSchedule n (w ++ [nw])

/-- The 64-word message schedule of a block. -/
def messageSchedule (block : List Nat) : List Nat := extendSchedule 48 block

/-- The eight working variables of the compression loop. -/
structure Sha256State where
  a : Nat
  b : Nat
  c : Nat
  d : Nat
  e : Nat
  f : Nat
  g : Nat
  h : Nat

/-- One compression round. -/
def sha256Round (st : Sha256State) (kw : Nat × Nat) : Sha256State :=
  let t1 := (st.h + bsig1 st.e + chf st.e st.f st.g + kw.1 + kw.2) % w32
  let t2 := (bsig0 st.a + majf st.a st.b st.c) % w32
  { a := (t1 + t2) % w32
    b := st.a
    c := st.b
    d := st.c
    e := (st.d + t1) % w32
    f := st.e
    g := st.f
    h := st.g }

/-- Wrapping addition of the compressed state onto the running hash value. -/
def addState (hs : List Nat) (st : Sha256State) : List Nat :=
  [(hs.getD 0 0 + st.a) % w32, (hs.getD 1 0 + st.b) % w32,
   (hs.getD 2 0 + st.c) % w32, (hs.getD 3 0 + st.d) % w32,
   (hs.getD 4 0 + st.e) % w32, (hs.getD 5 0 + st.f) % w32,
   (hs.getD 6 0 + st.g) % w32, (hs.getD 7 0 + st.h) % w32]

/-- Compress one 16-word block into the running hash value. -/
def processBlock (hs : List Nat) (block : List Nat) : List Nat :=
  let w := messageSchedule block
  let init : Sha256State :=
    ⟨hs.getD 0 0, hs.getD 1 0, hs.getD 2 0, hs.getD 3 0,
     hs.getD 4 0, hs.getD 5 0, hs.getD 6 0, hs.getD 7 0⟩
  addState hs ((sha256K.zip w).foldl sha256Round init)

/-- The SHA-256 digest of a byte list, as eight 32-bit words. -/
def sha256Words (msg : List Nat) : List Nat :=
  (wordBlocks (bytesToWords (padMessage msg))).foldl processBlock sha256InitH

/-- The sixteen lowercase hex digits. -/
def hexChars : List Char := "0123456789abcdef".data

/-- The hex digit of a nibble. -/
def hexChar (n : Nat) : Char := hexChars.getD n '0'

/-- Whether a character is a lowercase hex digit. -/
def isHexChar (c : Char) : Bool := hexChars.contains c

/-- The eight hex characters of a 32-bit word, most significant first
(the Rust lowercase-hex formatting of the digest). -/
def toHex8 (w : Nat) : List Char :=
  (List.range 8).map (fun i => hexChar (w / 16 ^ (7 - i) % 16))

/-- The hex digest characters of a word list. -/
def hexOfWords (ws : List Nat) : List Char := ws.flatMap toHex8

/-- UTF-8 encoding of one character as natural-number bytes. -/
def utf8BytesChar (c : Char) : List Nat :=
  let n := c.toNat
  if n < 0x80 then
    [n]
  else if n < 0x800 then
    [0xc0 + n / 0x40, 0x80 + n % 0x40]
  else if n < 0x10000 then
    [0xe0 + n / 0x1000, 0x80 + n / 0x40 % 0x40, 0x80 + n % 0x40]
  else
    [0xf0 + n / 0x40000, 0x80 + n / 0x1000 % 0x40, 0x80 + n / 0x40 % 0x40, 0x80 + n % 0x40]

/-- UTF-8 encoding of a string (`str::as_bytes`). -/
def utf8Bytes (s : String) : List Nat := s.data.flatMap utf8BytesChar

/-- The concatenation of the four formatted inputs of `generate_point_id`,
as one string: path, decimal start line, decimal end line, symbol name,
with no separators. -/
def pointIdInput (file_path : String) (start_line end_line : Nat)
    (symbol_name : String) : String :=
  file_path ++ toString start_line ++ toString end_line ++ symbol_name

/-- The byte stream fed to the hasher by the four `hasher.update` calls of
`generate_point_id` (`vector_db.rs` lines 44-48). -/
def pointIdHasherInput (file_path : String) (start_line end_line : Nat)
    (symbol_name : String) : List Nat :=
  utf8Bytes file_path ++ utf8Bytes (toString start_line) ++
    utf8Bytes (toString end_line) ++ utf8Bytes symbol_name

/-- The UUID-shaped formatting of the digest (`vector_db.rs` lines 51-61):
hex characters 0-8, 8-12, 12-16, 16-20 and 20-32 joined with dashes. -/
def uuidFromWords (ws : List Nat) : String :=
  let hex_str := hexOfWords ws
  String.mk (hex_str.take 8 ++ '-' ::
    ((hex_str.drop 8).take 4 ++ '-' ::
      ((hex_str.drop 12).take 4 ++ '-' ::
        ((hex_str.drop 16).take 4 ++ '-' :: (hex_str.drop 20).take 12))))

/-- `generate_point_id` from `vector_db.rs`. -/
def generatePointId (file_path : String) (start_line end_line : Nat)
    (symbol_name : String) : String :=
  uuidFromWords (sha256Words (pointIdHasherInput file_path start_line end_line symbol_name))

/-- Decider for the `8-4-4-4-12` lowercase-hex shape. -/
def checkHexRun : Nat → List Char → Option (List Char)
  | 0, cs => some cs
  | n + 1, c :: cs => if isHexChar c then checkHexRun n cs else none
  | _ + 1, [] => none

/-- Consume one dash. -/
def expectDash : List Char → Option (List Char)
  | '-' :: rest => some rest
  | _ => none

/-- Consume one dash-prefixed run of four hex digits. -/
def dashHex4 (r : List Char) : Option (List Char) :=
  (expectDash r).bind (checkHexRun 4)

/-- Whether a string consists of five dash-separated runs of 8, 4, 4, 4 and
12 lowercase hex digits. -/
def isUuidShaped (s : String) : Bool :=
  decide (((((checkHexRun 8 s.data).bind dashHex4).bind dashHex4).bind
    dashHex4).bind (fun r => (expectDash r).bind (checkHexRun 12)) = some ([] : List Char))

theorem hexChar_mem_hexChars (n : Nat) : isHexChar (hexChar n) = true := by
  unfold hexChar
  rcases Nat.lt_or_ge n 16 with h | h
  · interval_cases n <;> decide
  · rw [List.getD_eq_default _ _ (by simpa [hexChars] using h)]
    decide

theorem toHex8_length (w : Nat) : (toHex8 w).length = 8 := by
  simp [toHex8]

theorem toHex8_all_hex (w : Nat) : ∀ c ∈ toHex8 w, isHexChar c = true := by
  intro c hc
  simp only [toHex8, List.mem_map] at hc
  obtain ⟨i, _, rfl⟩ := hc
  exact hexChar_mem_hexChars _

theorem addState_length (hs : List Nat) (st : Sha256State) : (addState hs st).length = 8 := rfl

theorem addState_mem_lt (hs : List Nat) (st : Sha256State) :
    ∀ x ∈ addState hs st, x < w32 := by
  intro x hx
  simp only [addState, List.mem_cons, List.not_mem_nil, or_false] at hx
  rcases hx with rfl | rfl | rfl | rfl | rfl | rfl | rfl | rfl <;>
    exact Nat.mod_lt _ (by norm_num [w32])

theorem processBlock_length (hs block : List Nat) : (processBlock hs block).length = 8 :=
  addState_length hs _

theorem processBlock_mem_lt (hs block : List Nat) :
    ∀ x ∈ processBlock hs block, x < w32 :=
  addState_mem_lt hs _

theorem foldl_processBlock_length (blocks : List (List Nat)) (hs : List Nat)
    (h : hs.length = 8) : (blocks.foldl processBlock hs).length = 8 := by
  induction blocks generalizing hs with
  | nil => simpa using h
  | cons b rest ih =>
    rw [List.foldl_cons]
    exact ih _ (processBlock_length hs b)

theorem sha256Words_length (msg : List Nat) : (sha256Words msg).length = 8 :=
  foldl_processBlock_length _ _ (by decide)

theorem foldl_processBlock_mem_lt (blocks : List (List Nat)) (hs : List Nat)
    (hhs : ∀ x ∈ hs, x < w32) : ∀ x ∈ blocks.foldl processBlock hs, x < w32 := by
  induction blocks generalizing hs with
  | nil => exact hhs
  | cons b rest ih =>
    rw [List.foldl_cons]
    exact ih (processBlock hs b) (processBlock_mem_lt hs b)

theorem sha256Words_mem_lt (msg : List Nat) : ∀ x ∈ sha256Words msg, x < w32 := by
  unfold sha256Words
  exact foldl_processBlock_mem_lt _ _ (by decide)

theorem hexOfWords_length (ws : List Nat) : (hexOfWords ws).length = 8 * ws.length := by
  induction ws with
  | nil => rfl
  | cons w rest ih =>
    simp only [hexOfWords, List.flatMap_cons, List.length_append, toHex8_length,
      List.length_cons] at *
    omega

theorem hexOfWords_all_hex (ws : List Nat) : ∀ c ∈ hexOfWords ws, isHexChar c = true := by
  intro c hc
  simp only [hexOfWords, List.mem_flatMap] at hc
  obtain ⟨w, _, hcw⟩ := hc
  exact toHex8_all_hex w c hcw

theorem checkHexRun_append (g rest : List Char) (n : Nat) (hlen : g.length = n)
    (hhex : ∀ c ∈ g, isHexChar c = true) :
    checkHexRun n (g ++ rest) = some rest := by
  induction g generalizing n with
  | nil => simp at hlen; subst hlen; rfl
  | cons c t ih =>
    cases n with
    | zero => simp at hlen
    | succ m =>
      simp only [List.cons_append, checkHexRun]
      rw [if_pos (hhex c (List.mem_cons_self _ _))]
      exact ih m (by simpa using hlen) (fun x hx => hhex x (List.mem_cons_of_mem _ hx))

theorem take_all_of_all {p : Char → Bool} {l : List Char} (k : Nat)
    (h : ∀ c ∈ l, p c = true) : ∀ c ∈ l.take k, p c = true :=
  fun c hc => h c ((List.take_sublist k l).subset hc)

theorem drop_all_of_all {p : Char → Bool} {l : List Char} (k : Nat)
    (h : ∀ c ∈ l, p c = true) : ∀ c ∈ l.drop k, p c = true :=
  fun c hc => h c ((List.drop_sublist k l).subset hc)

theorem isUuidShaped_uuidFromWords (ws : List Nat) (hlen : ws.length = 8)
    (hhex : ∀ c ∈ hexOfWords ws, isHexChar c = true) :
    isUuidShaped (uuidFromWords ws) = true := by
  unfold uuidFromWords isUuidShaped
  set hx := hexOfWords ws with hhx
  have h64 : hx.length = 64 := by rw [hhx, hexOfWords_length, hlen]
  have ht1 : (hx.take 8).length = 8 := by simp [h64]
  have ht2 : ((hx.drop 8).take 4).length = 4 := by simp [h64]
  have ht3 : ((hx.drop 12).take 4).length = 4 := by simp [h64]
  have ht4 : ((hx.drop 16).take 4).length = 4 := by simp [h64]
  have ht5 : ((hx.drop 20).take 12).length = 12 := by simp [h64]
  have e1 := checkHexRun_append (hx.take 8)
    ('-' :: ((hx.drop 8).take 4 ++ '-' :: ((hx.drop 12).take 4 ++ '-' ::
      ((hx.drop 16).take 4 ++ '-' :: (hx.drop 20).take 12)))) 8 ht1
    (take_all_of_all 8 hhex)
  have e2 := checkHexRun_append ((hx.drop 8).take 4)
    ('-' :: ((hx.drop 12).take 4 ++ '-' :: ((hx.drop 16).take 4 ++ '-' ::
      (hx.drop 20).take 12))) 4 ht2
    (take_all_of_all 4 (drop_all_of_all 8 hhex))
  have e3 := checkHexRun_append ((hx.drop 12).take 4)
    ('-' :: ((hx.drop 16).take 4 ++ '-' :: (hx.drop 20).take 12)) 4 ht3
    (take_all_of_all 4 (drop_all_of_all 12 hhex))
  have e4 := checkHexRun_append ((hx.drop 16).take 4)
    ('-' :: (hx.drop 20).take 12) 4 ht4
    (take_all_of_all 4 (drop_all_of_all 16 hhex))
  have e5 : checkHexRun 12 ((hx.drop 20).take 12) = some [] := by
    have := checkHexRun_append ((hx.drop 20).take 12) [] 12 ht5
      (take_all_of_all 12 (drop_all_of_all 20 hhex))
    rwa [List.append_nil] at this
  rw [decide_eq_true_eq,
    show ∀ l : List Char, (String.mk l).data = l from fun _ => rfl]
  rw [e1]
  simp only [Option.some_bind, dashHex4, expectDash, e2, e3, e4, e5]

theorem utf8Bytes_append (a b : String) :
    utf8Bytes (a ++ b) = utf8Bytes a ++ utf8Bytes b := by
  simp [utf8Bytes, String.data_append]

theorem pointIdHasherInput_eq (p : String) (s e : Nat) (n : String) :
    pointIdHasherInput p s e n = utf8Bytes (pointIdInput p s e n) := by
  simp [pointIdHasherInput, pointIdInput, utf8Bytes_append]

theorem string_append_left_cancel (a x y : String) (h : a ++ x = a ++ y) : x = y := by
  apply String.ext
  have hd : (a ++ x).data = (a ++ y).data := by rw [h]
  rw [String.data_append, String.data_append] at hd
  exact List.append_cancel_left hd

/-- C8 (amended).  `generate_point_id` is a pure function of the quadruple:
it factors through SHA-256 applied to the UTF-8 bytes of the concatenation
path then decimal start then decimal end then name; for a fixed path and
lines, two different symbol names always yield two different hasher input
strings (though different inputs may still collide in the 128-bit truncated
digest); and every produced identifier is a UUID-shaped string of five
dash-separated lowercase hex runs of lengths 8, 4, 4, 4 and 12. -/
theorem c8_point_id (p : String) (s e : Nat) (n₁ n₂ : String) (h : n₁ ≠ n₂) :
    generatePointId p s e n₁ = uuidFromWords (sha256Words (utf8Bytes (pointIdInput p s e n₁))) ∧
    pointIdInput p s e n₁ ≠ pointIdInput p s e n₂ ∧
    isUuidShaped (generatePointId p s e n₁) = true := by
  refine ⟨by rw [generatePointId, pointIdHasherInput_eq], ?_, ?_⟩
  · intro habs
    unfold pointIdInput at habs
    exact h (string_append_left_cancel _ _ _ habs)
  · unfold generatePointId
    exact isUuidShaped_uuidFromWords _ (sha256Words_length _)
      (hexOfWords_all_hex _)

/-- Witness for C8 at a concrete quadruple with two distinct names. -/
theorem c8_point_id_witness :
    pointIdInput "a" 1 2 "x" ≠ pointIdInput "a" 1 2 "y" ∧
    isUuidShaped (generatePointId "a" 1 2 "x") = true :=
  ⟨(c8_point_id "a" 1 2 "x" "y" (by decide)).2.1,
   (c8_point_id "a" 1 2 "x" "y" (by decide)).2.2⟩

/-- Little-endian base-`2 ^ 32` packing of a word list. -/
def wordsToNat : List Nat → Nat
  | [] => 0
  | w :: rest => w + w32 * wordsToNat rest

theorem wordsToNat_lt : ∀ l : List Nat, (∀ x ∈ l, x < w32) → wordsToNat l < w32 ^ l.length := by
  intro l
  induction l with
  | nil => intro _; simp [wordsToNat]
  | cons w rest ih =>
    intro hb
    have hw : w < w32 := hb w (List.mem_cons_self _ _)
    have hr : wordsToNat rest < w32 ^ rest.length :=
      ih (fun x hx => hb x (List.mem_cons_of_mem _ hx))
    calc w + w32 * wordsToNat rest < w32 + w32 * wordsToNat rest :=
          Nat.add_lt_add_right hw _
      _ = w32 * (wordsToNat rest + 1) := by ring
      _ ≤ w32 * w32 ^ rest.length :=
          Nat.mul_le_mul_left _ (Nat.succ_le_of_lt hr)
      _ = w32 ^ (rest.length + 1) := by rw [pow_succ]; ring
      _ = w32 ^ (w :: rest).length := by simp

theorem wordsToNat_inj : ∀ l₁ l₂ : List Nat, l₁.length = l₂.length →
    (∀ x ∈ l₁, x < w32) → (∀ x ∈ l₂, x < w32) →
    wordsToNat l₁ = wordsToNat l₂ → l₁ = l₂ := by
  intro l₁
  induction l₁ with
  | nil =>
    intro l₂ hlen _ _ _
    cases l₂ with
    | nil => rfl
    | cons _ _ => simp at hlen
  | cons a t ih =>
    intro l₂ hlen hb1 hb2 heq
    cases l₂ with
    | nil => simp at hlen
    | cons b u =>
      simp only [wordsToNat] at heq
      have ha : a < w32 := hb1 a (List.mem_cons_self _ _)
      have hbb : b < w32 := hb2 b (List.mem_cons_self _ _)
      have hab : a = b := by
        have h1 : (a + w32 * wordsToNat t) % w32 = a % w32 := by
          simp [Nat.add_mul_mod_self_left]
        have h2 : (b + w32 * wordsToNat u) % w32 = b % w32 := by
          simp [Nat.add_mul_mod_self_left]
        have := congrArg (· % w32) heq
        simp only [h1, h2] at this
        rwa [Nat.mod_eq_of_lt ha, Nat.mod_eq_of_lt hbb] at this
      subst hab
      have htu : wordsToNat t = wordsToNat u :=
        Nat.eq_of_mul_eq_mul_left (by norm_num [w32]) (Nat.add_left_cancel heq)
      have := ih u (by simpa using hlen)
        (fun x hx => hb1 x (List.mem_cons_of_mem _ hx))
        (fun x hx => hb2 x (List.mem_cons_of_mem _ hx)) htu
      rw [this]

/-- Counterexample to C8 as stated: the identifier keeps only 128 bits of
digest, so the map from symbol names to identifiers, with path and lines
fixed, maps an infinite set into a finite one; two distinct names with the
same identifier must exist.  (No explicit pair can be exhibited — doing so
would be exhibiting a SHA-256 collision — but the universal claim "two
different symbol names yield different identifiers" is thereby false.) -/
theorem c8_claim_counterexample :
    ∃ n₁ n₂ : String, n₁ ≠ n₂ ∧ generatePointId "a" 1 1 n₁ = generatePointId "a" 1 1 n₂ := by
  have hinj : ∀ nm₁ nm₂ : String,
      sha256Words (pointIdHasherInput "a" 1 1 nm₁) =
        sha256Words (pointIdHasherInput "a" 1 1 nm₂) →
      generatePointId "a" 1 1 nm₁ = generatePointId "a" 1 1 nm₂ := by
    intro nm₁ nm₂ hw
    unfold generatePointId
    rw [hw]
  let F : String → Fin (w32 ^ 8) := fun nm =>
    ⟨wordsToNat (sha256Words (pointIdHasherInput "a" 1 1 nm)), by
      have := wordsToNat_lt (sha256Words (pointIdHasherInput "a" 1 1 nm))
        (sha256Words_mem_lt _)
      rwa [sha256Words_length] at this⟩
  obtain ⟨n₁, n₂, hne, heq⟩ := Finite.exists_ne_map_eq_of_infinite F
  refine ⟨n₁, n₂, hne, hinj n₁ n₂ ?_⟩
  apply wordsToNat_inj
  · rw [sha256Words_length, sha256Words_length]
  · exact sha256Words_mem_lt _
  · exact sha256Words_mem_lt _
  · exact congrArg Fin.val heq

/-- C10.  `generate_point_id` is not injective on the quadruple: the path
bytes, decimal line numbers and name bytes are concatenated with no
separators before hashing, so the distinct quadruples `("a", 12, 3, "name")`
and `("a1", 2, 3, "name")` feed the identical byte stream `a123name` to the
hasher and receive the identical identifier. -/
theorem c10_point_id_not_injective :
    ("a", 12, 3, "name") ≠ ("a1", 2, 3, "name") ∧
    generatePointId "a" 12 3 "name" = generatePointId "a1" 2 3 "name" := by
  refine ⟨by decide, ?_⟩
  have h : pointIdHasherInput "a" 12 3 "name" = pointIdHasherInput "a1" 2 3 "name" := by decide
  unfold generatePointId
  rw [h]

/-! ### Embedding batches (`embedding.rs`, `embed_chunks` and `embed_texts`)

The provider response is abstracted as an oracle from the request texts to
the response items; `f32` vectors are an opaque type parameter.  The
embedding functions are instrumented to also return the list of requests
issued (the `batch_texts` of each `embed_texts` call), so that the batching
contract can be stated about them. -/

/-- `EmbeddingData` from `embedding.rs`: one response item, carrying the
vector, the per-item index and the optional object tag. -/
structure EmbeddingData (α : Type) where
  embedding : α
  index : Nat
  object : Option String
deriving Repr, DecidableEq

/-- `EmbeddingConfig` from `embedding.rs` (headers as an association
list). -/
structure EmbeddingConfig where
  provider : String
  api_url : String
  api_key : String
  model : String
  batch_size : Nat
  timeout_seconds : Nat
  additional_headers : List (String × String)
deriving Repr, DecidableEq

/-- `EmbeddedChunk` from `embedding.rs` (the creation timestamp is a
natural). -/
structure EmbeddedChunk (α : Type) where
  chunk : CodeChunk
  embedding : α
  model : String
  created_at : Nat
deriving Repr, DecidableEq

/-- The tail of `embed_texts` (`embedding.rs` lines 302-307): sort the
response items by their `index` field with a stable sort (Rust
`sort_by_key`; embedded as insertion sort, which is stable) and project the
vectors. -/
def embedTextsSorted {α : Type} (data : List (EmbeddingData α)) : List α :=
  (data.insertionSort (fun d1 d2 => d1.index ≤ d2.index)).map (·.embedding)

/-- `embed_texts` from `embedding.rs`: `respond` abstracts the HTTP call,
`none` standing for a transport or status failure. -/
def embedTexts {α : Type} (respond : List String → Option (List (EmbeddingData α)))
    (texts : List String) : Except String (List α) :=
  match respond texts with
  | none => .error "Embedding API request failed"
  | some data => .ok (embedTextsSorted data)

/-- The loop of `embed_chunks` (`embedding.rs` lines 215-244).  Arguments
mirror the loop state: remaining chunks, `current_batch`, the accumulated
`embedded_chunks`, plus the instrumentation list of issued request texts.
A batch is flushed when it reaches `batch_size` or at the last chunk; a
response of the wrong length aborts with the count-mismatch error. -/
def embedChunksGo {α : Type} (cfg : EmbeddingConfig)
    (respond : List String → Option (List (EmbeddingData α))) (now : Nat) :
    List CodeChunk → List CodeChunk → List (EmbeddedChunk α) → List (List String) →
    Except String (List (EmbeddedChunk α) × List (List String))
  | [], _current_batch, acc, reqs => .ok (acc, reqs)
  | chunk :: rest, current_batch, acc, reqs =>
    let current_batch2 := current_batch ++ [chunk]
    let batch_texts := current_batch2.map (·.content)
    if cfg.batch_size ≤ batch_texts.length || rest.isEmpty then
      match embedTexts respond batch_texts with
      | .error e => .error e
      | .ok embeddings =>
        if embeddings.length = current_batch2.length then
          embedChunksGo cfg respond now rest []
            (acc ++ (current_batch2.zip embeddings).map
              (fun pe => ⟨pe.1, pe.2, cfg.model, now⟩))
            (reqs ++ [batch_texts])
        else
          .error "Embedding count mismatch"
    else
      embedChunksGo cfg respond now rest current_batch2 acc reqs

/-- `embed_chunks` from `embedding.rs`, instrumented with the issued
requests. -/
def embedChunks {α : Type} (cfg : EmbeddingConfig)
    (respond : List String → Option (List (EmbeddingData α))) (now : Nat)
    (chunks : List CodeChunk) :
    Except String (List (EmbeddedChunk α) × List (List String)) :=
  if chunks.isEmpty then .ok ([], []) else embedChunksGo cfg respond now chunks [] [] []

theorem embedChunksGo_spec {α : Type} (cfg : EmbeddingConfig)
    (respond : List String → Option (List (EmbeddingData α))) (now : Nat) :
    ∀ (remaining current_batch : List CodeChunk) (acc : List (EmbeddedChunk α))
      (reqs : List (List String)) (res : List (EmbeddedChunk α)) (rq : List (List String)),
      embedChunksGo cfg respond now remaining current_batch acc reqs = .ok (res, rq) →
      (remaining = [] → current_batch = []) →
      res.map (·.chunk) = acc.map (·.chunk) ++ current_batch ++ remaining ∧
      rq.flatten = reqs.flatten ++ (current_batch ++ remaining).map (·.content) := by
  intro remaining
  induction remaining with
  | nil =>
    intro current_batch acc reqs res rq h hcb
    rw [hcb rfl] at *
    simp only [embedChunksGo] at h
    cases h
    simp
  | cons chunk rest ih =>
    intro current_batch acc reqs res rq h _
    simp only [embedChunksGo] at h
    by_cases hflush :
        (cfg.batch_size ≤ ((current_batch ++ [chunk]).map (·.content)).length ||
          rest.isEmpty) = true
    · rw [if_pos hflush] at h
      cases hresp : embedTexts respond ((current_batch ++ [chunk]).map (·.content)) with
      | error e => rw [hresp] at h; exact absurd h (by simp)
      | ok embeddings =>
        rw [hresp] at h
        simp only at h
        by_cases hlen : embeddings.length = (current_batch ++ [chunk]).length
        · rw [if_pos hlen] at h
          have hrec := ih [] (acc ++ ((current_batch ++ [chunk]).zip embeddings).map
              (fun pe => ⟨pe.1, pe.2, cfg.model, now⟩))
            (reqs ++ [(current_batch ++ [chunk]).map (·.content)]) res rq h (fun _ => rfl)
          have hzip : (((current_batch ++ [chunk]).zip embeddings).map
              (fun pe => (⟨pe.1, pe.2, cfg.model, now⟩ : EmbeddedChunk α))).map (·.chunk) =
              current_batch ++ [chunk] := by
            rw [List.map_map]
            exact List.map_fst_zip _ _ (le_of_eq hlen.symm)
          constructor
          · rw [hrec.1, List.map_append, hzip]
            simp
          · rw [hrec.2]
            simp
        · rw [if_neg hlen] at h
          exact absurd h (by simp)
    · rw [if_neg hflush] at h
      have hrest : rest ≠ [] := by
        intro hr
        subst hr
        simp at hflush
      have hrec := ih (current_batch ++ [chunk]) acc reqs res rq h
        (fun hr => absurd hr hrest)
      constructor
      · rw [hrec.1]
        simp
      · rw [hrec.2]
        simp

theorem embedChunksGo_req_bound {α : Type} (cfg : EmbeddingConfig)
    (respond : List String → Option (List (EmbeddingData α))) (now : Nat) :
    ∀ (remaining current_batch : List CodeChunk) (acc : List (EmbeddedChunk α))
      (reqs : List (List String)) (res : List (EmbeddedChunk α)) (rq : List (List String)),
      embedChunksGo cfg respond now remaining current_batch acc reqs = .ok (res, rq) →
      current_batch.length < cfg.batch_size →
      (∀ r ∈ reqs, r.length ≤ cfg.batch_size) →
      ∀ r ∈ rq, r.length ≤ cfg.batch_size := by
  intro remaining
  induction remaining with
  | nil =>
    intro current_batch acc reqs res rq h _ hreqs
    simp only [embedChunksGo] at h
    cases h
    exact hreqs
  | cons chunk rest ih =>
    intro current_batch acc reqs res rq h hcb hreqs
    simp only [embedChunksGo] at h
    by_cases hflush :
        (cfg.batch_size ≤ ((current_batch ++ [chunk]).map (·.content)).length ||
          rest.isEmpty) = true
    · rw [if_pos hflush] at h
      cases hresp : embedTexts respond ((current_batch ++ [chunk]).map (·.content)) with
      | error e => rw [hresp] at h; exact absurd h (by simp)
      | ok embeddings =>
        rw [hresp] at h
        simp only at h
        by_cases hlen : embeddings.length = (current_batch ++ [chunk]).length
        · rw [if_pos hlen] at h
          refine ih [] _ _ res rq h (by simp only [List.length_nil]; omega) ?_
          intro r hr
          rcases List.mem_append.mp hr with hr | hr
          · exact hreqs r hr
          · simp only [List.mem_singleton] at hr
            subst hr
            simp only [List.length_map, List.length_append, List.length_singleton]
            omega
        · rw [if_neg hlen] at h
          exact absurd h (by simp)
    · rw [if_neg hflush] at h
      simp only [Bool.or_eq_true, not_or, decide_eq_true_eq, Nat.not_le, List.length_map,
        List.length_append, List.length_singleton, List.isEmpty_iff] at hflush
      obtain ⟨hsize, _⟩ := hflush
      exact ih (current_batch ++ [chunk]) acc reqs res rq h
        (by simp only [List.length_append, List.length_singleton]; omega) hreqs

/-- The re-sorting contract of `embed_texts`: when the response items are a
permutation of the correctly indexed vectors `0, …, n-1`, sorting by the
per-item index recovers the vectors in request order. -/
theorem embedTextsSorted_of_perm_enum {α : Type} (data : List (EmbeddingData α))
    (vecs : List α)
    (hperm : (data.map (fun d => (d.index, d.embedding))).Perm vecs.enum) :
    embedTextsSorted data = vecs := by
  classical
  haveI : IsTotal (EmbeddingData α) (fun d1 d2 => d1.index ≤ d2.index) :=
    ⟨fun a b => Nat.le_total a.index b.index⟩
  haveI : IsTrans (EmbeddingData α) (fun d1 d2 => d1.index ≤ d2.index) :=
    ⟨fun _ _ _ hab hbc => Nat.le_trans hab hbc⟩
  set r : EmbeddingData α → EmbeddingData α → Prop := fun d1 d2 => d1.index ≤ d2.index with hr
  set g : EmbeddingData α → Nat × α := fun d => (d.index, d.embedding) with hg
  have hsp : (data.insertionSort r).Perm data := List.perm_insertionSort r data
  have hsorted : List.Sorted r (data.insertionSort r) := List.sorted_insertionSort r data
  have hpg : ((data.insertionSort r).map g).Perm vecs.enum := (hsp.map g).trans hperm
  have hnodup : ((data.insertionSort r).map (fun d => d.index)).Nodup := by
    have h1 : ((data.insertionSort r).map (fun d => d.index)).Perm (vecs.enum.map Prod.fst) := by
      have := hpg.map Prod.fst
      simpa [List.map_map, hg, Function.comp] using this
    have h2 : (vecs.enum.map Prod.fst).Nodup := by
      rw [List.enum_map_fst]
      exact List.nodup_range _
    exact (h1.symm).nodup h2
  have hstrict : List.Pairwise (fun a b : EmbeddingData α => a.index < b.index)
      (data.insertionSort r) := by
    have hne : List.Pairwise (fun a b : EmbeddingData α => a.index ≠ b.index)
        (data.insertionSort r) := List.pairwise_map.mp hnodup
    have hle : List.Pairwise (fun a b : EmbeddingData α => a.index ≤ b.index)
        (data.insertionSort r) := hsorted
    exact (hle.and hne).imp (fun h => Nat.lt_of_le_of_ne h.1 h.2)
  have hpair1 : List.Pairwise (fun p q : Nat × α => p.1 < q.1)
      ((data.insertionSort r).map g) := by
    rw [List.pairwise_map]
    exact hstrict
  have hpair2 : List.Pairwise (fun p q : Nat × α => p.1 < q.1) vecs.enum := by
    have := List.pairwise_lt_range vecs.length
    rw [← List.enum_map_fst vecs] at this
    exact List.pairwise_map.mp this
  haveI : IsAntisymm (Nat × α) (fun p q => p.1 < q.1) :=
    ⟨fun a b h1 h2 => absurd (Nat.lt_trans h1 h2) (Nat.lt_irrefl _)⟩
  have heq : (data.insertionSort r).map g = vecs.enum :=
    List.eq_of_perm_of_sorted hpg hpair1 hpair2
  have : ((data.insertionSort r).map g).map Prod.snd = vecs.enum.map Prod.snd := by
    rw [heq]
  rw [List.map_map] at this
  rw [List.enum_map_snd] at this
  unfold embedTextsSorted
  exact this

/-- C9 (amended).  On every successful run, `embed_chunks` returns one
embedded chunk per input chunk, in input order, pairing the i-th chunk with
the i-th vector of its batch; batch construction preserves the input order
(the concatenation of all issued requests is exactly the chunk contents in
order); every issued request holds at most `batch_size` texts provided
`batch_size ≥ 1` (with `batch_size = 0` every request still holds one
text); and within a batch the response's per-item `index` field re-sorts
the vectors, so a response that is any permutation of the correctly indexed
vectors is paired back in request order. -/
theorem c9_embed_chunks {α : Type} (cfg : EmbeddingConfig)
    (respond : List String → Option (List (EmbeddingData α))) (now : Nat)
    (chunks : List CodeChunk) (res : List (EmbeddedChunk α)) (reqs : List (List String))
    (h : embedChunks cfg respond now chunks = .ok (res, reqs)) :
    res.map (·.chunk) = chunks ∧
    reqs.flatten = chunks.map (·.content) ∧
    (1 ≤ cfg.batch_size → ∀ r ∈ reqs, r.length ≤ cfg.batch_size) ∧
    (∀ (data : List (EmbeddingData α)) (vecs : List α),
      (data.map (fun d => (d.index, d.embedding))).Perm vecs.enum →
      embedTextsSorted data = vecs) := by
  unfold embedChunks at h
  by_cases hemp : chunks.isEmpty
  · rw [if_pos hemp] at h
    have hch : chunks = [] := List.isEmpty_iff.mp hemp
    cases h
    subst hch
    exact ⟨rfl, rfl, fun _ r hr => absurd hr (List.not_mem_nil r),
      fun data vecs hp => embedTextsSorted_of_perm_enum data vecs hp⟩
  · rw [if_neg hemp] at h
    have hspec := embedChunksGo_spec cfg respond now chunks [] [] [] res reqs h
      (fun hc => absurd hc (by simpa [List.isEmpty_iff] using hemp))
    refine ⟨by simpa using hspec.1, by simpa using hspec.2, ?_,
      fun data vecs hp => embedTextsSorted_of_perm_enum data vecs hp⟩
    intro hbs
    exact embedChunksGo_req_bound cfg respond now chunks [] [] [] res reqs h
      (by simp only [List.length_nil]; omega) (by simp)

/-- A two-text-per-request configuration. -/
def c9Cfg : EmbeddingConfig :=
  ⟨"siliconflow", "https://api.siliconflow.cn/v1/embeddings", "key",
    "Qwen/Qwen3-Embedding-8B", 2, 30, []⟩

/-- The same configuration with `batch_size = 0` (reachable through the
`CODEX_EMBEDDING_BATCH_SIZE` environment variable, whose value is parsed
with no positivity check). -/
def c9Cfg0 : EmbeddingConfig := ⟨"siliconflow", "u", "k", "m", 0, 30, []⟩

/-- A one-line chunk with the given symbol name and content. -/
def c9ChunkOf (nm content : String) : CodeChunk :=
  ⟨content, "f.rs", 1, 1, nm, "Function", none, ⟨false, 1, 0, false⟩⟩

/-- A provider that answers every request with correctly indexed items in
reverse order (vector `i + 100` at index `i`), exercising the re-sort. -/
def c9Respond : List String → Option (List (EmbeddingData Nat)) := fun texts =>
  some ((texts.enum.reverse).map (fun p => ⟨p.1 + 100, p.1, none⟩))

/-- The embedded chunks of the three-chunk witness run. -/
def c9Res : List (EmbeddedChunk Nat) :=
  [⟨c9ChunkOf "a" "ta", 100, "Qwen/Qwen3-Embedding-8B", 7⟩,
   ⟨c9ChunkOf "b" "tb", 101, "Qwen/Qwen3-Embedding-8B", 7⟩,
   ⟨c9ChunkOf "c" "tc", 100, "Qwen/Qwen3-Embedding-8B", 7⟩]

/-- Witness for C9: three chunks at `batch_size = 2` are embedded in order
through the requests `t a, t b` then `t c`, with the out-of-order response
re-sorted by index. -/
theorem c9_embed_chunks_witness :
    c9Res.map (·.chunk) =
      [c9ChunkOf "a" "ta", c9ChunkOf "b" "tb", c9ChunkOf "c" "tc"] ∧
    (["ta", "tb"] : List String).length ≤ c9Cfg.batch_size := by
  have h := c9_embed_chunks c9Cfg c9Respond 7
    [c9ChunkOf "a" "ta", c9ChunkOf "b" "tb", c9ChunkOf "c" "tc"] c9Res
    [["ta", "tb"], ["tc"]] rfl
  exact ⟨h.1, h.2.2.1 (by decide) ["ta", "tb"] (by decide)⟩

/-- The embedded chunks of the `batch_size = 0` run. -/
def c9Res0 : List (EmbeddedChunk Nat) :=
  [⟨c9ChunkOf "a" "ta", 100, "m", 7⟩, ⟨c9ChunkOf "b" "tb", 100, "m", 7⟩]

/-- Counterexample to C9 as stated: with `batch_size = 0` the run succeeds
but each issued request carries one text, which exceeds `batch_size` — the
claim "batches of at most batch_size texts" fails without the side
condition `batch_size ≥ 1`. -/
theorem c9_claim_counterexample :
    embedChunks c9Cfg0 c9Respond 7 [c9ChunkOf "a" "ta", c9ChunkOf "b" "tb"] =
      .ok (c9Res0, [["ta"], ["tb"]]) ∧
    ¬((["ta"] : List String).length ≤ c9Cfg0.batch_size) := by
  exact ⟨rfl, by decide⟩

end CodebaseSearch
